import Mathlib

/-!
Verification of the TimetableProcessor bus-scheduling core (`Bus_Scheduling/`).

This file shallowly embeds the Python functions that the claims refer to:

* `Scheduling_Utilities.ParseHxM`            → `parseHxM`
* `Trip.RecalcMinutes`                       → `recalcMinutes`
* `Scheduling_Precalculation.GetDistFromEdge`→ `getDistFromEdge`
* `Scheduling_Precalculation.CreateFeasibilityGraph` → `createFeasibilityGraph`
* `Scheduling_Main.ConvertEdgesToBuses`      → `convertEdgesToBuses`
* `Scheduling_Main.OptimizeTripsFindOptimalDepot.evalDepot` → `evalDepot`
* `Scheduling_Main.EvaluateSwapDiffShort`    → `evaluateSwapDiffShort`
* the population-update round of `OptimizeTripsCircularApprox` → `circApproxRound`
* the post-`optimize` tail of `OptimizeTripsCircularsExact` → `circularsExactPostOptimize`
* `Trip.ToDictForJson` / `Trip.FromDictForJson` and
  `SchedulesToJsonDict` / `SchedulesFromJsonDict`.

Modelling conventions:

* Python exceptions (KeyError, IndexError, ValueError, unpacking errors…) are
  modelled by `Option`/`Except`: a raised exception is `none`/`.error`.
* Python `int` is `Int` (arbitrary precision in both); Python floats occurring
  in the code (`0.001 * waitingTime`) are modelled by exact rationals `ℚ`.
* Python list indexing `l[i]` (including negative indices counting from the
  end) is `pyGet`; `dict.get` on a string-keyed dict is `Option`-valued lookup.
* Python strings are manipulated through their character lists (`String.data`),
  with `splitCh` modelling `str.split` on a one-character separator.
* `list.sort` (a stable sort) is modelled by `List.insertionSort`; all places
  where a claim depends on the result have duplicate-free sort keys, so
  stability never matters for the statements proved here.
-/

/-- Python list indexing `l[i]`: non-negative indices from the front, negative
indices from the back, out-of-range is an `IndexError` (`none`). -/
def pyGet (l : List α) (i : Int) : Option α :=
  if 0 ≤ i then l.get? i.toNat
  else
    let j : Int := (l.length : Int) + i
    if 0 ≤ j then l.get? j.toNat else none

/-- ASCII decimal digit test (the only digits occurring in timetable data). -/
def isDigitCh (c : Char) : Bool :=
  48 ≤ c.toNat && c.toNat ≤ 57

/-- Characters stripped by Python `int(str)` before parsing (ASCII whitespace;
`int` also strips some Unicode spaces, which never occur in timetable data).
Codes: space 32, tab 9, newline 10, carriage return 13, vertical tab 11,
form feed 12. -/
def isPySpace (c : Char) : Bool :=
  c.toNat = 32 || c.toNat = 9 || c.toNat = 10 || c.toNat = 13 ||
    c.toNat = 11 || c.toNat = 12

/-- Strip leading and trailing Python whitespace from a character list. -/
def pyTrim (l : List Char) : List Char :=
  ((l.dropWhile isPySpace).reverse.dropWhile isPySpace).reverse

/-- Digit-run parser used by `pyIntChars`: after the first digit, Python `int`
allows single underscores between digits. -/
def pyDigitsLoop (l : List Char) (acc : Nat) : Option Nat :=
  match l with
  | [] => some acc
  | c :: cs =>
    if c = '_' then
      match cs with
      | [] => none
      | c2 :: cs2 =>
        if isDigitCh c2 then pyDigitsLoop cs2 (10 * acc + (c2.toNat - 48))
        else none
    else if isDigitCh c then pyDigitsLoop cs (10 * acc + (c.toNat - 48))
    else none

/-- Nonempty digit run (first character must be a digit). -/
def pyDigits (l : List Char) : Option Nat :=
  match l with
  | [] => none
  | c :: cs => if isDigitCh c then pyDigitsLoop cs (c.toNat - 48) else none

/-- Python `int(s)` on the strings fed to it by `ParseHxM`: optional
whitespace, optional sign, then digits (underscores allowed between digits).
Raises `ValueError` (`none`) otherwise. -/
def pyIntChars (l : List Char) : Option Int :=
  match pyTrim l with
  | [] => none
  | c :: rest =>
    if c = '+' then (pyDigits rest).map Int.ofNat
    else if c = '-' then (pyDigits rest).map (fun n => -(n : Int))
    else (pyDigits (c :: rest)).map Int.ofNat

/-- Python `s.split(sep)` for a single-character separator, over char lists. -/
def splitCh (sep : Char) (l : List Char) : List (List Char) :=
  match l with
  | [] => [[]]
  | c :: cs =>
    match splitCh sep cs with
    | [] => [[]]
    | g :: gs => if c = sep then [] :: g :: gs else (c :: g) :: gs

/-- `Scheduling_Utilities.ParseHxM`: split on a colon into exactly two fields,
check the field lengths (hour 1–2 characters, minute exactly 2), convert both
with Python `int`, then range-check hour `0 ≤ hh < 24` and minute
`0 ≤ mm < 60`; the result is `60 * hh + mm`. Any failure raises (`none`). -/
def parseHxM (hhmm : String) : Option Nat :=
  match splitCh ':' hhmm.data with
  | [shh, smm] =>
    if shh.length ≠ 1 ∧ shh.length ≠ 2 then none
    else if smm.length ≠ 2 then none
    else
      match pyIntChars shh, pyIntChars smm with
      | some hh, some mm =>
        if 0 ≤ hh ∧ hh < 24 then
          if 0 ≤ mm ∧ mm < 60 then some (60 * hh.toNat + mm.toNat) else none
        else none
      | _, _ => none
  | _ => none

/-- `Trip.RecalcMinutes`, abstracted over the two time strings and the
day-offset `(self.Day - firstDay).days` (present exactly when both `self.Day`
and `firstDay` are set, which is the `if self.Day and firstDay` branch).
Returns the recomputed `(StartTimeMins, EndTimeMins)` pair; a parse failure in
`ParseHxM` propagates as `none`. -/
def recalcMinutes (startTime endTime : String) (dayDiff : Option Int) :
    Option (Int × Int) := do
  let s ← parseHxM startTime
  let e ← parseHxM endTime
  -- the two source asserts `StartTimeMins >= 0`, `EndTimeMins >= 0` hold
  -- because `ParseHxM` only returns values in `0..1439`
  let sM : Int := s
  let eM : Int := if (e : Int) < (s : Int) then (e : Int) + 24 * 60 else (e : Int)
  match dayDiff with
  | some dd => some (sM + dd * 24 * 60, eM + dd * 24 * 60)
  | none => some (sM, eM)

/-- Decimal value of a digit string, most-significant digit first: the
specification-side meaning of an `HH` / `MM` field made of digits. -/
def dVal (l : List Char) : Nat :=
  l.foldl (fun a c => 10 * a + (c.toNat - 48)) 0

theorem pyDigitsLoop_all_digits :
    ∀ (l : List Char) (acc : Nat), (∀ c ∈ l, isDigitCh c) →
      pyDigitsLoop l acc =
        some (l.foldl (fun a c => 10 * a + (c.toNat - 48)) acc) := by
  intro l
  induction l with
  | nil => intro acc _; rfl
  | cons c cs ih =>
    intro acc h
    have hc : isDigitCh c := h c (by simp)
    have hne : c ≠ '_' := by
      intro e
      subst e
      exact absurd hc (by decide)
    rw [pyDigitsLoop.eq_def]
    simp only [if_neg hne, if_pos hc, List.foldl_cons]
    exact ih _ (fun d hd => h d (List.mem_cons_of_mem _ hd))

theorem pyDigits_all_digits (l : List Char) (hne : l ≠ [])
    (h : ∀ c ∈ l, isDigitCh c) : pyDigits l = some (dVal l) := by
  cases l with
  | nil => exact absurd rfl hne
  | cons c cs =>
    have hc : isDigitCh c := h c (by simp)
    rw [pyDigits.eq_def]
    simp only []
    rw [if_pos hc,
      pyDigitsLoop_all_digits cs _ (fun d hd => h d (List.mem_cons_of_mem _ hd))]
    simp [dVal]

theorem dropWhile_of_all_false (p : Char → Bool) (l : List Char)
    (h : ∀ c ∈ l, p c = false) : l.dropWhile p = l := by
  cases l with
  | nil => rfl
  | cons c cs => rw [List.dropWhile_cons, h c (by simp)]; simp

theorem pyTrim_of_no_space (l : List Char) (h : ∀ c ∈ l, isPySpace c = false) :
    pyTrim l = l := by
  unfold pyTrim
  rw [dropWhile_of_all_false _ _ h,
    dropWhile_of_all_false _ _ (fun c hc => h c (List.mem_reverse.mp hc)),
    List.reverse_reverse]

theorem isDigitCh_not_space (c : Char) (h : isDigitCh c = true) :
    isPySpace c = false := by
  simp only [isDigitCh, Bool.and_eq_true, decide_eq_true_eq] at h
  simp only [isPySpace, Bool.or_eq_false_iff, decide_eq_false_iff_not]
  omega

theorem pyIntChars_all_digits (l : List Char) (hne : l ≠ [])
    (h : ∀ c ∈ l, isDigitCh c) : pyIntChars l = some (Int.ofNat (dVal l)) := by
  simp only [pyIntChars]
  rw [pyTrim_of_no_space l (fun c hc => isDigitCh_not_space c (h c hc))]
  cases l with
  | nil => exact absurd rfl hne
  | cons c cs =>
    have hc : isDigitCh c := h c (by simp)
    have hplus : c ≠ '+' := by
      intro e; subst e; exact absurd hc (by decide)
    have hminus : c ≠ '-' := by
      intro e; subst e; exact absurd hc (by decide)
    simp only [if_neg hplus, if_neg hminus,
      pyDigits_all_digits (c :: cs) (by simp) h, Option.map_some']

theorem splitCh_cons (sep c : Char) (cs : List Char) :
    splitCh sep (c :: cs) =
      match splitCh sep cs with
      | [] => [[]]
      | g :: gs => if c = sep then [] :: g :: gs else (c :: g) :: gs := rfl

theorem splitCh_ne_nil (sep : Char) (l : List Char) : splitCh sep l ≠ [] := by
  cases l with
  | nil => simp [splitCh]
  | cons c cs =>
    rw [splitCh_cons]
    cases hs : splitCh sep cs with
    | nil => simp
    | cons g gs =>
      by_cases hc : c = sep <;> simp [hc]

theorem splitCh_no_sep (sep : Char) :
    ∀ l : List Char, (∀ c ∈ l, c ≠ sep) → splitCh sep l = [l] := by
  intro l
  induction l with
  | nil => intro _; rfl
  | cons c cs ih =>
    intro h
    rw [splitCh_cons, ih (fun d hd => h d (List.mem_cons_of_mem _ hd))]
    simp [h c (by simp)]

theorem splitCh_append (sep : Char) :
    ∀ (a b : List Char), (∀ c ∈ a, c ≠ sep) →
      splitCh sep (a ++ sep :: b) = a :: splitCh sep b := by
  intro a
  induction a with
  | nil =>
    intro b _
    rw [List.nil_append, splitCh_cons]
    cases hs : splitCh sep b with
    | nil => exact absurd hs (splitCh_ne_nil sep b)
    | cons g gs => simp [splitCh_cons]
  | cons c a0 ih =>
    intro b h
    rw [List.cons_append, splitCh_cons,
      ih b (fun d hd => h d (List.mem_cons_of_mem _ hd))]
    simp [h c (by simp)]

/-- Every successful `parseHxM` run decomposes its input at the colon into an
hour field of 1–2 characters and a minute field of 2 characters that Python
`int` accepts with values in range, and returns `60 * hh + mm`. -/
theorem parseHxM_some_shape (s : String) (v : Nat) (h : parseHxM s = some v) :
    ∃ (f1 f2 : List Char) (hh mm : Int), splitCh ':' s.data = [f1, f2] ∧
      (f1.length = 1 ∨ f1.length = 2) ∧ f2.length = 2 ∧
      pyIntChars f1 = some hh ∧ pyIntChars f2 = some mm ∧
      0 ≤ hh ∧ hh < 24 ∧ 0 ≤ mm ∧ mm < 60 ∧
      v = 60 * hh.toNat + mm.toNat := by
  unfold parseHxM at h
  cases hsp : splitCh ':' s.data with
  | nil => rw [hsp] at h; exact absurd h (by simp)
  | cons f1 rest =>
    cases rest with
    | nil => rw [hsp] at h; exact absurd h (by simp)
    | cons f2 rest2 =>
      cases rest2 with
      | cons g gs => rw [hsp] at h; exact absurd h (by simp)
      | nil =>
        rw [hsp] at h
        simp only [] at h
        by_cases hl1 : f1.length ≠ 1 ∧ f1.length ≠ 2
        · rw [if_pos hl1] at h; exact absurd h (by simp)
        · rw [if_neg hl1] at h
          by_cases hl2 : f2.length ≠ 2
          · rw [if_pos hl2] at h; exact absurd h (by simp)
          · rw [if_neg hl2] at h
            cases hi1 : pyIntChars f1 with
            | none => rw [hi1] at h; exact absurd h (by simp)
            | some hh =>
              cases hi2 : pyIntChars f2 with
              | none => rw [hi1, hi2] at h; exact absurd h (by simp)
              | some mm =>
                rw [hi1, hi2] at h
                simp only [] at h
                by_cases hr1 : 0 ≤ hh ∧ hh < 24
                · rw [if_pos hr1] at h
                  by_cases hr2 : 0 ≤ mm ∧ mm < 60
                  · rw [if_pos hr2] at h
                    refine ⟨f1, f2, hh, mm, rfl, ?_, ?_, hi1, hi2,
                      hr1.1, hr1.2, hr2.1, hr2.2, ?_⟩
                    · omega
                    · omega
                    · exact (Option.some_inj.mp h).symm
                  · rw [if_neg hr2] at h; exact absurd h (by simp)
                · rw [if_neg hr1] at h; exact absurd h (by simp)

/-- `ParseHxM` only returns values below 1440 (= 24 hours in minutes). -/
theorem parseHxM_lt_1440 (s : String) (v : Nat) (h : parseHxM s = some v) :
    v < 1440 := by
  obtain ⟨f1, f2, hh, mm, -, -, -, -, -, h1, h2, h3, h4, hv⟩ :=
    parseHxM_some_shape s v h
  omega

/-- C10 (amended): the HH:MM parser accepts every string consisting of a 1- or
2-digit hour in 0..23, a colon, and a 2-digit minute in 0..59, returning
`60 * hour + minute`; conversely every accepted string splits at the colon
into a 1–2 character hour field and a 2-character minute field that Python
`int` parses to values in 0..23 and 0..59 respectively — in particular an
hour of 24 or more (such as "24:30") is always rejected — but the fields need
not be pure digit strings, because Python `int` also accepts sign and
whitespace characters (e.g. "+5:30" is accepted; see the counterexample). -/
theorem parseHxM_accepts_and_rejects :
    (∀ (hs ms : List Char), (hs.length = 1 ∨ hs.length = 2) → ms.length = 2 →
        (∀ c ∈ hs, isDigitCh c) → (∀ c ∈ ms, isDigitCh c) →
        dVal hs < 24 → dVal ms < 60 →
        parseHxM ⟨hs ++ ':' :: ms⟩ = some (60 * dVal hs + dVal ms)) ∧
    (∀ (s : String) (v : Nat), parseHxM s = some v →
        ∃ (f1 f2 : List Char) (hh mm : Int), splitCh ':' s.data = [f1, f2] ∧
          (f1.length = 1 ∨ f1.length = 2) ∧ f2.length = 2 ∧
          pyIntChars f1 = some hh ∧ pyIntChars f2 = some mm ∧
          0 ≤ hh ∧ hh < 24 ∧ 0 ≤ mm ∧ mm < 60 ∧
          v = 60 * hh.toNat + mm.toNat) ∧
    parseHxM "24:30" = none := by
  refine ⟨?_, parseHxM_some_shape, by decide⟩
  intro hs ms hl1 hl2 hd1 hd2 hv1 hv2
  have hne1 : hs ≠ [] := by
    intro e; subst e; simp at hl1
  have hne2 : ms ≠ [] := by
    intro e; subst e; simp at hl2
  have hcol : ∀ c, isDigitCh c → c ≠ ':' := by
    intro c hcd e
    subst e
    exact absurd hcd (by decide)
  unfold parseHxM
  have hdata : (String.mk (hs ++ ':' :: ms)).data = hs ++ ':' :: ms := rfl
  rw [hdata, splitCh_append ':' hs ms (fun c hc => hcol c (hd1 c hc)),
    splitCh_no_sep ':' ms (fun c hc => hcol c (hd2 c hc))]
  simp only []
  rw [if_neg (by omega), if_neg (by omega),
    pyIntChars_all_digits hs hne1 hd1, pyIntChars_all_digits ms hne2 hd2]
  simp only []
  rw [if_pos ⟨Int.natCast_nonneg _, Int.ofNat_lt.mpr hv1⟩,
    if_pos ⟨Int.natCast_nonneg _, Int.ofNat_lt.mpr hv2⟩]
  simp

/-- Witness for C10: the theorem applied to the concrete input "07:30". -/
theorem parseHxM_accepts_and_rejects_witness :
    parseHxM ⟨['0', '7'] ++ ':' :: ['3', '0']⟩ =
      some (60 * dVal ['0', '7'] + dVal ['3', '0']) :=
  parseHxM_accepts_and_rejects.1 ['0', '7'] ['3', '0'] (Or.inr rfl) rfl
    (by decide) (by decide) (by decide) (by decide)

/-- C10 counterexample: "+5:30" is accepted (value 330) although its hour
field "+5" is not a digit string, contradicting the claim that exactly the
digit-formed strings are accepted and everything else raises. -/
theorem parseHxM_nondigit_accepted :
    parseHxM "+5:30" = some 330 ∧
      splitCh ':' "+5:30".data = [['+', '5'], ['3', '0']] ∧
      isDigitCh '+' = false := by decide

/-- C4: whenever both time strings parse, the recomputed trip minutes satisfy
`EndTimeMins ≥ StartTimeMins`; the day rollover adds 1440 exactly once (the
difference stays below 1440), and the day-offset shift cancels out of the
difference. -/
theorem recalcMinutes_end_ge_start (st et : String) (dd : Option Int)
    (a b : Int) (h : recalcMinutes st et dd = some (a, b)) :
    a ≤ b ∧ b - a < 1440 ∧
      ∃ (s e : Nat), parseHxM st = some s ∧ parseHxM et = some e ∧
        b - a = if (e : Int) < (s : Int) then (e : Int) + 1440 - (s : Int)
          else (e : Int) - (s : Int) := by
  unfold recalcMinutes at h
  cases hs : parseHxM st with
  | none => rw [hs] at h; exact absurd h (by simp)
  | some s =>
    cases he : parseHxM et with
    | none => rw [hs, he] at h; exact absurd h (by simp)
    | some e =>
      rw [hs, he] at h
      simp only [Option.bind_eq_bind, Option.some_bind] at h
      have hsb := parseHxM_lt_1440 st s hs
      have heb := parseHxM_lt_1440 et e he
      by_cases hes : (e : Int) < (s : Int)
      · rw [if_pos hes] at h
        cases dd with
        | some d =>
          simp only [Option.some_inj, Prod.mk.injEq] at h
          obtain ⟨ha, hb⟩ := h
          refine ⟨by omega, by omega, s, e, rfl, rfl, ?_⟩
          rw [if_pos hes]
          omega
        | none =>
          simp only [Option.some_inj, Prod.mk.injEq] at h
          obtain ⟨ha, hb⟩ := h
          refine ⟨by omega, by omega, s, e, rfl, rfl, ?_⟩
          rw [if_pos hes]
          omega
      · rw [if_neg hes] at h
        cases dd with
        | some d =>
          simp only [Option.some_inj, Prod.mk.injEq] at h
          obtain ⟨ha, hb⟩ := h
          refine ⟨by omega, by omega, s, e, rfl, rfl, ?_⟩
          rw [if_neg hes]
          omega
        | none =>
          simp only [Option.some_inj, Prod.mk.injEq] at h
          obtain ⟨ha, hb⟩ := h
          refine ⟨by omega, by omega, s, e, rfl, rfl, ?_⟩
          rw [if_neg hes]
          omega

/-- Witness for C4: the theorem applied to an overnight trip 23:30–0:10 on
day offset 1, which recomputes to minutes (2850, 2890). -/
theorem recalcMinutes_end_ge_start_witness :
    (2850 : Int) ≤ 2890 ∧ (2890 : Int) - 2850 < 1440 ∧
      ∃ (s e : Nat), parseHxM "23:30" = some s ∧ parseHxM "0:10" = some e ∧
        (2890 : Int) - 2850 =
          if (e : Int) < (s : Int) then (e : Int) + 1440 - (s : Int)
          else (e : Int) - (s : Int) :=
  recalcMinutes_end_ge_start "23:30" "0:10" (some 1) 2850 2890 (by decide)

/-- The fields of `Scheduling_Classes.Trip` that the scheduling algorithms
read after `RecalcMinutes`: line number, the two terminal stops and the
recomputed minute values (which live on the trip object as `StartTimeMins`
and `EndTimeMins`). -/
structure TripT where
  Line : Int
  StartStop : String
  EndStop : String
  StartTimeMins : Int
  EndTimeMins : Int
deriving DecidableEq

/-- `Scheduling_Precalculation.GetDistFromEdge`: deadhead cost of an edge
`(trip1, trip2)` of trip indices, where `-1` stands for a pull-out and `-2`
for a pull-in endpoint served by the depot.  Mirrors the source line by line:

* `trip1 == -1` uses the depot index (raising `ValueError` when absent) and
  adds `depotVal`; any other index is Python list indexing into `trips`
  (negative values index from the back!) followed by `stopsMap.get`;
* symmetrically for `trip2 == -2`;
* for a genuine trip-to-trip edge (`trip1 >= 0 and trip2 >= 0`) a line-change
  penalty is added, and the experimental waiting penalty adds
  `0.001 * waitingTime` — a float in the source, an exact rational here —
  whenever the waiting time is positive (the matrix access in this block
  raises if a stop lookup failed, before the explicit `Stop not found` check);
* unresolved stops raise `ValueError("Stop not found")`, a negative total
  raises `ValueError("Negative distance")`. -/
def getDistFromEdge (edge : Int × Int) (trips : List TripT)
    (stopsMap : String → Option Nat) (distances : Nat → Nat → Int)
    (depotIdx : Option Nat) (depotVal linePenalty : Int) : Option ℚ :=
  let trip1 := edge.1
  let trip2 := edge.2
  let srcRes : Option (Option Nat × ℚ) :=
    if trip1 = -1 then depotIdx.map (fun dp => (some dp, (depotVal : ℚ)))
    else (pyGet trips trip1).map (fun t => (stopsMap t.EndStop, 0))
  let dstRes : Option (Option Nat × ℚ) :=
    if trip2 = -2 then depotIdx.map (fun dp => (some dp, (depotVal : ℚ)))
    else (pyGet trips trip2).map (fun t => (stopsMap t.StartStop, 0))
  match srcRes, dstRes with
  | some (fromId, d1), some (toId, d2) =>
    let penPart : Option ℚ :=
      if 0 ≤ trip1 ∧ 0 ≤ trip2 then
        match pyGet trips trip1, pyGet trips trip2, fromId, toId with
        | some t1, some t2, some fi, some ti =>
          some ((if t1.Line ≠ t2.Line then (linePenalty : ℚ) else 0) +
            (if 0 < t2.StartTimeMins - t1.EndTimeMins - distances fi ti then
              ((t2.StartTimeMins - t1.EndTimeMins - distances fi ti : Int) : ℚ) / 1000
            else 0))
        | _, _, _, _ => none
      else some 0
    match penPart, fromId, toId with
    | some p, some fi, some ti =>
      let distance : ℚ := d1 + d2 + p + (distances fi ti : ℚ)
      if distance < 0 then none else some distance
    | _, _, _ => none
  | _, _ => none

/-- All stops referenced by the trip list resolve in the stop→index map; when
this fails the comprehension in `CreateFeasibilityGraph` raises `KeyError`,
which is modelled by guarding the whole result on this test. -/
def stopsOk (trips : List TripT) (stopsMap : String → Option Nat) : Bool :=
  trips.all (fun t =>
    (stopsMap t.EndStop).isSome && (stopsMap t.StartStop).isSome)

/-- `Scheduling_Precalculation.CreateFeasibilityGraph`: the list comprehension
`[(i, j) for i, t1 in enumerate(trips) for j, t2 in enumerate(trips) if
t1.EndTimeMins + distances[...] <= t2.StartTimeMins <= t1.EndTimeMins +
maxWaitHours * 60]`.  Note the source has no `i ≠ j` filter. -/
def createFeasibilityGraph (trips : List TripT)
    (stopsMap : String → Option Nat) (distances : Nat → Nat → Int)
    (maxWaitHours : Int) : Option (List (Nat × Nat)) :=
  if stopsOk trips stopsMap then
    some ((List.range trips.length ×ˢ List.range trips.length).filter
      (fun p =>
        match trips.get? p.1, trips.get? p.2 with
        | some t1, some t2 =>
          decide (t1.EndTimeMins +
              distances ((stopsMap t1.EndStop).getD 0)
                ((stopsMap t2.StartStop).getD 0) ≤ t2.StartTimeMins ∧
            t2.StartTimeMins ≤ t1.EndTimeMins + maxWaitHours * 60)
        | _, _ => false))
  else none

/-- C2 (amended): the feasibility-graph builder returns exactly the
(duplicate-free) list of ordered trip-index pairs `(i, j)` — with `i = j`
allowed, since the source comprehension has no `i ≠ j` filter — such that
`end(i) + distance(endStop(i), startStop(j)) ≤ start(j) ≤ end(i) +
maxWaitHours·60`; a reflexive pair `(i, i)` occurs exactly when trip `i`
starts at the time and stop where it ends (see the counterexample). -/
theorem createFeasibilityGraph_exact (trips : List TripT)
    (stopsMap : String → Option Nat) (distances : Nat → Nat → Int)
    (maxWaitHours : Int) (edges : List (Nat × Nat))
    (h : createFeasibilityGraph trips stopsMap distances maxWaitHours =
      some edges) :
    edges.Nodup ∧
      ∀ i j : Nat, (i, j) ∈ edges ↔
        ∃ (t1 t2 : TripT), trips.get? i = some t1 ∧ trips.get? j = some t2 ∧
          ∃ (a b : Nat), stopsMap t1.EndStop = some a ∧
            stopsMap t2.StartStop = some b ∧
            t1.EndTimeMins + distances a b ≤ t2.StartTimeMins ∧
            t2.StartTimeMins ≤ t1.EndTimeMins + maxWaitHours * 60 := by
  unfold createFeasibilityGraph at h
  by_cases hok : stopsOk trips stopsMap
  · rw [if_pos hok] at h
    have hstops : ∀ t ∈ trips,
        (stopsMap t.EndStop).isSome ∧ (stopsMap t.StartStop).isSome := by
      intro t ht
      have := List.all_eq_true.mp hok t ht
      simpa using this
    obtain rfl : edges = _ := (Option.some_inj.mp h).symm
    constructor
    · exact (((List.nodup_range _).product (List.nodup_range _)).filter _)
    · intro i j
      rw [List.mem_filter, List.mem_product, List.mem_range, List.mem_range]
      constructor
      · rintro ⟨⟨hi, hj⟩, hp⟩
        cases hg1 : trips.get? i with
        | none => rw [hg1] at hp; simp at hp
        | some t1 =>
          cases hg2 : trips.get? j with
          | none => rw [hg1, hg2] at hp; simp at hp
          | some t2 =>
            rw [hg1, hg2] at hp
            obtain ⟨hae, -⟩ := hstops t1 (List.get?_mem hg1)
            obtain ⟨a, ha⟩ := Option.isSome_iff_exists.mp hae
            obtain ⟨-, hbs⟩ := hstops t2 (List.get?_mem hg2)
            obtain ⟨b, hb2⟩ := Option.isSome_iff_exists.mp hbs
            simp only [ha, hb2, Option.getD_some, decide_eq_true_eq] at hp
            exact ⟨t1, t2, rfl, rfl, a, b, ha, hb2, hp.1, hp.2⟩
      · rintro ⟨t1, t2, hg1, hg2, a, b, ha, hb, h1, h2⟩
        have hi : i < trips.length := by
          by_contra hc
          rw [List.get?_eq_none.mpr (by omega)] at hg1
          exact Option.noConfusion hg1
        have hj : j < trips.length := by
          by_contra hc
          rw [List.get?_eq_none.mpr (by omega)] at hg2
          exact Option.noConfusion hg2
        refine ⟨⟨hi, hj⟩, ?_⟩
        rw [hg1, hg2]
        simp only [ha, hb, Option.getD_some, decide_eq_true_eq]
        exact ⟨h1, h2⟩
  · rw [if_neg hok] at h
    exact absurd h (by simp)

/-- Witness for C2: the theorem applied to a concrete two-trip instance. -/
theorem createFeasibilityGraph_exact_witness :
    ∃ edges : List (Nat × Nat),
      createFeasibilityGraph
        [⟨1, "A", "B", 0, 30⟩, ⟨1, "B", "C", 40, 70⟩]
        (fun s => if s = "A" then some 0 else if s = "B" then some 1
          else if s = "C" then some 2 else none)
        (fun _ _ => 5) 24 = some edges ∧
      edges.Nodup ∧ ((0, 1) ∈ edges ↔
        ∃ (t1 t2 : TripT),
          [(⟨1, "A", "B", 0, 30⟩ : TripT), ⟨1, "B", "C", 40, 70⟩].get? 0 =
            some t1 ∧
          [(⟨1, "A", "B", 0, 30⟩ : TripT), ⟨1, "B", "C", 40, 70⟩].get? 1 =
            some t2 ∧
          ∃ (a b : Nat),
            (fun s => if s = "A" then some 0 else if s = "B" then some 1
              else if s = "C" then some 2 else none) t1.EndStop = some a ∧
            (fun s => if s = "A" then some 0 else if s = "B" then some 1
              else if s = "C" then some 2 else none) t2.StartStop = some b ∧
            t1.EndTimeMins + (fun _ _ => (5 : Int)) a b ≤ t2.StartTimeMins ∧
            t2.StartTimeMins ≤ t1.EndTimeMins + 24 * 60) := by
  refine ⟨[(0, 1)], by decide, ?_⟩
  have hfull := createFeasibilityGraph_exact
    [⟨1, "A", "B", 0, 30⟩, ⟨1, "B", "C", 40, 70⟩]
    (fun s => if s = "A" then some 0 else if s = "B" then some 1
      else if s = "C" then some 2 else none)
    (fun _ _ => 5) 24 [(0, 1)] (by decide)
  exact ⟨hfull.1, hfull.2 0 1⟩

/-- C2 counterexample: a zero-length loop trip (start = end stop and time)
produces the reflexive pair `(0, 0)` in the feasibility graph, so the claim
that `(i, i)` is never returned is false on the code. -/
theorem createFeasibilityGraph_refl_pair :
    createFeasibilityGraph [⟨0, "A", "A", 600, 600⟩]
      (fun s => if s = "A" then some 0 else none) (fun _ _ => 0) 24 =
      some [(0, 0)] := by decide

/-- A rational that is an integer number of thousandths (milli-minutes). -/
def milliInt (q : ℚ) : Prop :=
  ∃ z : ℤ, 1000 * q = (z : ℚ)

theorem milliInt_intCast (z : Int) : milliInt (z : ℚ) :=
  ⟨1000 * z, by push_cast; ring⟩

theorem milliInt_zero : milliInt 0 :=
  ⟨0, by norm_num⟩

theorem milliInt_add {a b : ℚ} (ha : milliInt a) (hb : milliInt b) :
    milliInt (a + b) := by
  obtain ⟨x, hx⟩ := ha
  obtain ⟨y, hy⟩ := hb
  exact ⟨x + y, by push_cast; rw [mul_add, hx, hy]⟩

theorem milliInt_sub {a b : ℚ} (ha : milliInt a) (hb : milliInt b) :
    milliInt (a - b) := by
  obtain ⟨x, hx⟩ := ha
  obtain ⟨y, hy⟩ := hb
  exact ⟨x - y, by push_cast; rw [mul_sub, hx, hy]⟩

theorem milliInt_div1000 (z : Int) : milliInt ((z : ℚ) / 1000) :=
  ⟨z, by field_simp⟩

/-- Cached-weight lookup used by `EvaluateSwapDiffShort`:
`edgeWeights.get((x, y), 0)` where either component may be Python `None`
(in which case the integer-pair key is absent and the default 0 is taken). -/
def wgLookup (edgeWeights : Nat × Nat → Option ℚ) (x y : Option Nat) : ℚ :=
  match x, y with
  | some u, some v => (edgeWeights (u, v)).getD 0
  | _, _ => 0

/-- `Scheduling_Main.EvaluateSwapDiffShort`: constant-time cost delta of
swapping the suffixes of two circular duties after positions `a1`/`b1`
(`None` marks a duty boundary), computed from the cached edge weights; the
four sequential `if … is None` special cases mirror the source order, the
later ones overwriting the earlier ones. -/
def evaluateSwapDiffShort (bus1 bus2 : List Nat) (a1 a2 b1 b2 : Option Nat)
    (edgeWeights : Nat × Nat → Option ℚ) : Option ℚ := do
  let l1 ← pyGet bus1 (-1)
  let f1 ← pyGet bus1 0
  let l2 ← pyGet bus2 (-1)
  let f2 ← pyGet bus2 0
  let oldChain1 := wgLookup edgeWeights a1 a2
  let oldChain2 := wgLookup edgeWeights b1 b2
  let oldReturn1 := wgLookup edgeWeights (some l1) (some f1)
  let oldReturn2 := wgLookup edgeWeights (some l2) (some f2)
  let sumOld := oldChain1 + oldReturn1 + oldChain2 + oldReturn2
  let newChain1 := wgLookup edgeWeights a1 b2
  let newChain2 := wgLookup edgeWeights b1 a2
  let newReturn1 := wgLookup edgeWeights (some l2) (some f1)
  let newReturn2 := wgLookup edgeWeights (some l1) (some f2)
  let newReturn1 := if a1 = none then wgLookup edgeWeights (some l2) b2 else newReturn1
  let newReturn2 := if a2 = none then wgLookup edgeWeights b1 (some f2) else newReturn2
  let newReturn2 := if b1 = none then wgLookup edgeWeights (some l1) a2 else newReturn2
  let newReturn1 := if b2 = none then wgLookup edgeWeights a1 (some f1) else newReturn1
  let sumNew := newChain1 + newReturn1 + newChain2 + newReturn2
  pure (sumNew - sumOld)

theorem wgLookup_milliInt (edgeWeights : Nat × Nat → Option ℚ)
    (hw : ∀ e q, edgeWeights e = some q → milliInt q) (x y : Option Nat) :
    milliInt (wgLookup edgeWeights x y) := by
  unfold wgLookup
  match x, y with
  | some u, some v =>
    cases he : edgeWeights (u, v) with
    | none => simpa [he] using milliInt_zero
    | some q => simpa [he] using hw (u, v) q he
  | some u, none => exact milliInt_zero
  | none, some v => exact milliInt_zero
  | none, none => exact milliInt_zero

/-- C6 (amended): every deadhead cost returned by the edge-cost function is an
integer number of milli-minutes: an integer count of whole minutes except that
the experimental waiting penalty adds `0.001 * waitingTime` on trip-to-trip
edges with positive wait — and every swap cost delta that
`EvaluateSwapDiffShort` computes from cached weights with this property is
again an integer number of milli-minutes.  Costs are therefore not always
whole minutes (see the counterexample). -/
theorem deadheadCosts_milliInt :
    (∀ (edge : Int × Int) (trips : List TripT)
        (stopsMap : String → Option Nat) (distances : Nat → Nat → Int)
        (depotIdx : Option Nat) (depotVal linePenalty : Int) (q : ℚ),
        getDistFromEdge edge trips stopsMap distances depotIdx depotVal
          linePenalty = some q → milliInt q) ∧
    (∀ (bus1 bus2 : List Nat) (a1 a2 b1 b2 : Option Nat)
        (edgeWeights : Nat × Nat → Option ℚ) (q : ℚ),
        (∀ e w, edgeWeights e = some w → milliInt w) →
        evaluateSwapDiffShort bus1 bus2 a1 a2 b1 b2 edgeWeights = some q →
        milliInt q) := by
  constructor
  · intro edge trips stopsMap distances depotIdx depotVal linePenalty q h
    simp only [getDistFromEdge] at h
    split at h
    case _ fromId d1 toId d2 heq1 heq2 =>
      have hd1 : milliInt d1 := by
        split at heq1
        · cases depotIdx with
          | none => simp at heq1
          | some dp =>
            simp only [Option.map_some', Option.some_inj, Prod.mk.injEq] at heq1
            rw [← heq1.2]
            exact milliInt_intCast _
        · cases hpg : pyGet trips edge.1 with
          | none => rw [hpg] at heq1; simp at heq1
          | some t =>
            rw [hpg] at heq1
            simp only [Option.map_some', Option.some_inj, Prod.mk.injEq] at heq1
            rw [← heq1.2]
            exact milliInt_zero
      have hd2 : milliInt d2 := by
        split at heq2
        · cases depotIdx with
          | none => simp at heq2
          | some dp =>
            simp only [Option.map_some', Option.some_inj, Prod.mk.injEq] at heq2
            rw [← heq2.2]
            exact milliInt_intCast _
        · cases hpg : pyGet trips edge.2 with
          | none => rw [hpg] at heq2; simp at heq2
          | some t =>
            rw [hpg] at heq2
            simp only [Option.map_some', Option.some_inj, Prod.mk.injEq] at heq2
            rw [← heq2.2]
            exact milliInt_zero
      split at h
      case _ p fi ti hpen =>
        have hp : milliInt p := by
          split at hpen
          · split at hpen
            case _ t1 t2 fi2 ti2 =>
              simp only [Option.some_inj] at hpen
              rw [← hpen]
              apply milliInt_add
              · split
                · exact milliInt_intCast _
                · exact milliInt_zero
              · split
                · exact milliInt_div1000 _
                · exact milliInt_zero
            case _ => simp at hpen
          · simp only [Option.some_inj] at hpen
            rw [← hpen]
            exact milliInt_zero
        split at h
        · exact absurd h (by simp)
        · rw [← Option.some_inj.mp h]
          exact milliInt_add (milliInt_add (milliInt_add hd1 hd2) hp)
            (milliInt_intCast _)
      case _ => exact absurd h (by simp)
    case _ => exact absurd h (by simp)
  · intro bus1 bus2 a1 a2 b1 b2 edgeWeights q hw h
    have hwg : ∀ x y, milliInt (wgLookup edgeWeights x y) :=
      fun x y => wgLookup_milliInt _ hw x y
    simp only [evaluateSwapDiffShort] at h
    cases hl1 : pyGet bus1 (-1) with
    | none => rw [hl1] at h; simp at h
    | some l1 =>
      rw [hl1] at h
      cases hf1 : pyGet bus1 0 with
      | none => rw [hf1] at h; simp at h
      | some f1 =>
        rw [hf1] at h
        cases hl2 : pyGet bus2 (-1) with
        | none => rw [hl2] at h; simp at h
        | some l2 =>
          rw [hl2] at h
          cases hf2 : pyGet bus2 0 with
          | none => rw [hf2] at h; simp at h
          | some f2 =>
            rw [hf2] at h
            simp only [Option.bind_eq_bind, Option.some_bind, Option.pure_def,
              Option.some_inj] at h
            rw [← h]
            refine milliInt_sub ?_ (milliInt_add (milliInt_add (milliInt_add
              (hwg _ _) (hwg _ _)) (hwg _ _)) (hwg _ _))
            apply milliInt_add
            apply milliInt_add
            apply milliInt_add
            · exact hwg _ _
            · split
              · exact hwg _ _
              · split
                · exact hwg _ _
                · exact hwg _ _
            · exact hwg _ _
            · split
              · exact hwg _ _
              · split
                · exact hwg _ _
                · exact hwg _ _

/-- Witness for C6: the theorem applied to a concrete edge whose cost is
30.07 minutes (deadhead 30, waiting time 70 → penalty 0.07). -/
theorem deadheadCosts_milliInt_witness : milliInt (3007 / 100) :=
  deadheadCosts_milliInt.1 (0, 1)
    [⟨1, "A", "A", 0, 100⟩, ⟨1, "B", "B", 200, 260⟩]
    (fun s => if s = "A" then some 0 else if s = "B" then some 1 else none)
    (fun i j => if i = 0 ∧ j = 1 then 30 else 0) none 0 0 (3007 / 100)
    (by simp +decide [getDistFromEdge, pyGet]; norm_num)

/-- C6 counterexample: an edge between two trips with 70 minutes of waiting
costs 30 + 0.001·70 = 30.07 minutes — not an integer number of minutes, so
the claim that every deadhead cost is an integer number of minutes fails. -/
theorem getDistFromEdge_fractional_cost :
    getDistFromEdge (0, 1)
      [⟨1, "A", "A", 0, 100⟩, ⟨1, "B", "B", 200, 260⟩]
      (fun s => if s = "A" then some 0 else if s = "B" then some 1 else none)
      (fun i j => if i = 0 ∧ j = 1 then 30 else 0) none 0 0 =
      some (3007 / 100) ∧ ¬∃ z : ℤ, (3007 / 100 : ℚ) = (z : ℚ) := by
  constructor
  · simp +decide [getDistFromEdge, pyGet]
    norm_num
  · rintro ⟨z, hz⟩
    rw [div_eq_iff (by norm_num : (100 : ℚ) ≠ 0)] at hz
    have hz2 : (3007 : ℤ) = z * 100 := by exact_mod_cast hz
    omega

/-- Sum of an `Option`-valued per-duty quantity over a duty list, modelling
Python's `sum(<generator> for b in buses)` where the generator may raise. -/
def sumOverBuses (f : List Nat → Option ℚ) (buses : List (List Nat)) :
    Option ℚ :=
  match buses with
  | [] => some 0
  | b :: rest => do
    let x ← f b
    let r ← sumOverBuses f rest
    pure (x + r)

/-- The inner `evalDepot` closure of `OptimizeTripsFindOptimalDepot`: for
every duty `b` of the first-pass solution it adds
`GetDistFromEdge((b[0], -1), trips, stops, dists, depotId)` and
`GetDistFromEdge((b[-1], -2), trips, stops, dists, depotId)` (both calls
leave `depotVal` at its default 0), summing over all duties. -/
def evalDepot (buses : List (List Nat)) (trips : List TripT)
    (stopsMap : String → Option Nat) (distances : Nat → Nat → Int)
    (depotId : Nat) : Option ℚ :=
  sumOverBuses (fun b => do
    let bf ← pyGet b 0
    let bl ← pyGet b (-1)
    let x ← getDistFromEdge (Int.ofNat bf, -1) trips stopsMap distances
      (some depotId) 0 0
    let y ← getDistFromEdge (Int.ofNat bl, -2) trips stopsMap distances
      (some depotId) 0 0
    pure (x + y)) buses

/-- The depot objective exactly as the claim (and §4.3 of the specification)
words it — this definition follows the specification text, for comparison
with `evalDepot`: the sum over all duties of
`distance(depot, firstStop) + distance(lastStop, depot)`. -/
def evalDepotClaimed (buses : List (List Nat)) (trips : List TripT)
    (stopsMap : String → Option Nat) (distances : Nat → Nat → Int)
    (depotId : Nat) : Option ℚ :=
  sumOverBuses (fun b => do
    let bf ← pyGet b 0
    let bl ← pyGet b (-1)
    let t1 ← pyGet trips (Int.ofNat bf)
    let t2 ← pyGet trips (Int.ofNat bl)
    let a ← stopsMap t1.StartStop
    let z ← stopsMap t2.EndStop
    pure ((distances depotId a : ℚ) + (distances z depotId : ℚ))) buses

/-- C1 (code bug): the depot evaluator does not compute the claimed sum.  On
the two-stop instance P, Q with trips P→P and Q→Q, duties [[0], [1]] and
distance(P,Q) = 1, distance(Q,P) = 10, the code's `evalDepot` yields 2 for
depot Q while the claimed objective yields 11.  The pull-out term passes the
edge `(b[0], -1)` to `GetDistFromEdge`; `-1` in the *second* slot is not the
pull-out marker (that is `-1` in the *first* slot, per the function's own
docstring), so the call computes
`distance(endStop(first trip of duty), startStop(trips[-1]))` — Python
negative indexing selects the last trip of the whole list — and the depot is
ignored by the pull-out half of the sum. -/
theorem evalDepot_diverges_from_claim :
    evalDepot [[0], [1]]
      [⟨0, "P", "P", 0, 10⟩, ⟨0, "Q", "Q", 20, 30⟩]
      (fun s => if s = "P" then some 0 else if s = "Q" then some 1 else none)
      (fun i j => if i = 0 ∧ j = 1 then 1 else if i = 1 ∧ j = 0 then 10 else 0)
      1 = some 2 ∧
    evalDepotClaimed [[0], [1]]
      [⟨0, "P", "P", 0, 10⟩, ⟨0, "Q", "Q", 20, 30⟩]
      (fun s => if s = "P" then some 0 else if s = "Q" then some 1 else none)
      (fun i j => if i = 0 ∧ j = 1 then 1 else if i = 1 ∧ j = 0 then 10 else 0)
      1 = some 11 ∧
    (2 : ℚ) ≠ 11 := by
  refine ⟨?_, ?_, by norm_num⟩
  · simp +decide [evalDepot, sumOverBuses, getDistFromEdge, pyGet]
    norm_num
  · simp +decide [evalDepotClaimed, sumOverBuses, pyGet]
    norm_num

/-- One candidate of the `OptimizeTripsCircularApprox` population: the tuple
`(swap, buses, length, possibleSwaps)` of the source, with the recorded swap
to apply, the duty lists and the recorded objective value.  The
`possibleSwaps` cache is part of the tuple in the source but never affects
objective values, so it is not modelled. -/
structure CircSolution where
  lastSwap : Option (Nat × Int × Nat × Int)
  buses : List (List Nat)
  length : ℚ

/-- Comparison by recorded objective value (`key=lambda ns: ns[2]`). -/
def lenLE (a b : CircSolution) : Prop :=
  a.length ≤ b.length

instance : DecidableRel lenLE := fun a b => by
  unfold lenLE; infer_instance

instance : IsTotal CircSolution lenLE :=
  ⟨fun a b => le_total a.length b.length⟩

instance : IsTrans CircSolution lenLE :=
  ⟨fun _ _ _ hab hbc => le_trans hab hbc⟩

/-- Python's stable `list.sort(key=lambda ns: ns[2])` on a population. -/
def sortByLength (l : List CircSolution) : List CircSolution :=
  List.insertionSort lenLE l

/-- The survivor re-creation step of `OptimizeTripsCircularApprox`: apply the
recorded swap (if any) by splicing the suffixes of the two duties at the cut
points (`bus1[:trip1I+1] + bus2[trip2I+1:]` and symmetrically); the recorded
length is carried over unchanged (`currentLength` in the source). -/
def applySwapRebuild (s : CircSolution) : CircSolution :=
  match s.lastSwap with
  | none => { s with lastSwap := none }
  | some (bus1I, trip1I, bus2I, trip2I) =>
    let bus1 := s.buses.getD bus1I []
    let bus2 := s.buses.getD bus2I []
    let busA := bus1.take (trip1I + 1).toNat ++ bus2.drop (trip2I + 1).toNat
    let busB := bus2.take (trip2I + 1).toNat ++ bus1.drop (trip1I + 1).toNat
    { lastSwap := none,
      buses := (s.buses.set bus1I busA).set bus2I busB,
      length := s.length }

/-- One round of the population loop of `OptimizeTripsCircularApprox` (the
body of `while swapCount < iterations` on the `weighted = False` path, the
only reachable one).  The sampled proposals (`proposedSolutions`, each
recording a swap and the incrementally evaluated `length + swapDiff`) and the
random survivor subsample (`randomlyChosen`, drawn by `random.sample` from
the sorted tail `newSolutions[1:]`) are nondeterministic in the source and
therefore parameters here; `kept` is the population size.  The final sort key
`(ss[2], random.random())` orders primarily by recorded length; its random
tiebreak is irrelevant to every value-level statement. -/
def circApproxRound (solutions proposed randomlyChosen : List CircSolution)
    (kept : Nat) : List CircSolution :=
  let newSolutions := sortByLength (solutions ++ proposed)
  match newSolutions with
  | [] => []
  | best :: _ =>
    let survivors := best :: (sortByLength randomlyChosen).take (kept - 1)
    sortByLength (survivors.map applySwapRebuild)

/-- Best (minimal) recorded objective value of a population. -/
def bestLength (l : List CircSolution) : Option ℚ :=
  match l with
  | [] => none
  | s :: rest =>
    match bestLength rest with
    | none => some s.length
    | some m => some (min s.length m)

theorem bestLength_cons (s : CircSolution) (rest : List CircSolution) :
    bestLength (s :: rest) =
      match bestLength rest with
      | none => some s.length
      | some m => some (min s.length m) := rfl

theorem bestLength_le_of_mem :
    ∀ (l : List CircSolution) (s : CircSolution), s ∈ l →
      ∃ m, bestLength l = some m ∧ m ≤ s.length := by
  intro l
  induction l with
  | nil => intro s hs; simp at hs
  | cons a rest ih =>
    intro s hs
    rw [bestLength_cons]
    cases hb : bestLength rest with
    | none =>
      rcases List.mem_cons.mp hs with rfl | hmem
      · exact ⟨s.length, rfl, le_refl _⟩
      · obtain ⟨m, hm, -⟩ := ih s hmem
        rw [hm] at hb
        exact absurd hb (by simp)
    | some m =>
      rcases List.mem_cons.mp hs with rfl | hmem
      · exact ⟨min s.length m, rfl, min_le_left _ _⟩
      · obtain ⟨m2, hm2, hle⟩ := ih s hmem
        rw [hm2] at hb
        have hm2m : m2 = m := Option.some_inj.mp hb
        exact ⟨min a.length m, rfl,
          le_trans (min_le_right _ _) (hm2m ▸ hle)⟩

theorem bestLength_exists_mem :
    ∀ (l : List CircSolution) (m : ℚ), bestLength l = some m →
      ∃ s ∈ l, s.length = m := by
  intro l
  induction l with
  | nil => intro m hm; simp [bestLength] at hm
  | cons a rest ih =>
    intro m hm
    rw [bestLength_cons] at hm
    cases hb : bestLength rest with
    | none =>
      rw [hb] at hm
      exact ⟨a, by simp, Option.some_inj.mp hm⟩
    | some m2 =>
      rw [hb] at hm
      obtain rfl : min a.length m2 = m := Option.some_inj.mp hm
      rcases min_cases a.length m2 with ⟨heq, -⟩ | ⟨heq, -⟩
      · exact ⟨a, by simp, heq.symm⟩
      · obtain ⟨s, hs, hsl⟩ := ih m2 hb
        exact ⟨s, List.mem_cons_of_mem _ hs, by rw [hsl, heq]⟩

theorem applySwapRebuild_length (s : CircSolution) :
    (applySwapRebuild s).length = s.length := by
  unfold applySwapRebuild
  cases s.lastSwap with
  | none => rfl
  | some sw =>
    obtain ⟨b1, t1, b2, t2⟩ := sw
    rfl

/-- C5: across one round of the circular local-search population loop, the
best recorded objective value never increases: the round keeps the best
element of old-population ∪ proposals unconditionally (`newSolutions[0]`),
the rebuild step carries each survivor's recorded length over unchanged, and
the final sort is by length — so the minimum of the new population is at most
the minimum of the old one, for any sampled proposals and any random
survivor subsample. -/
theorem circApproxRound_best_nonincreasing
    (solutions proposed randomlyChosen : List CircSolution) (kept : Nat)
    (q : ℚ) (hq : bestLength solutions = some q) :
    ∃ r, bestLength (circApproxRound solutions proposed randomlyChosen kept) =
      some r ∧ r ≤ q := by
  obtain ⟨s0, hs0mem, hs0len⟩ := bestLength_exists_mem solutions q hq
  unfold circApproxRound
  have hperm : List.Perm (sortByLength (solutions ++ proposed))
      (solutions ++ proposed) :=
    List.perm_insertionSort lenLE _
  cases hcase : sortByLength (solutions ++ proposed) with
  | nil =>
    exfalso
    have hmem : s0 ∈ sortByLength (solutions ++ proposed) :=
      hperm.mem_iff.mpr (List.mem_append_left _ hs0mem)
    rw [hcase] at hmem
    simp at hmem
  | cons best tail =>
    have hsorted : List.Sorted lenLE (best :: tail) := by
      rw [← hcase]
      exact List.sorted_insertionSort lenLE _
    have hbest_le : ∀ t ∈ solutions ++ proposed, lenLE best t := by
      intro t ht
      have htns : t ∈ best :: tail := by
        rw [← hcase]
        exact hperm.mem_iff.mpr ht
      rcases List.mem_cons.mp htns with rfl | htail
      · exact le_refl t.length
      · exact (List.sorted_cons.mp hsorted).1 t htail
    have hb0 : best.length ≤ q := by
      rw [← hs0len]
      exact hbest_le s0 (List.mem_append_left _ hs0mem)
    have hmem_out : applySwapRebuild best ∈ sortByLength
        ((best :: (sortByLength randomlyChosen).take (kept - 1)).map
          applySwapRebuild) :=
      (List.perm_insertionSort lenLE _).mem_iff.mpr
        (List.mem_map_of_mem _ (by simp))
    obtain ⟨r, hr, hrle⟩ := bestLength_le_of_mem _ _ hmem_out
    rw [applySwapRebuild_length] at hrle
    exact ⟨r, hr, le_trans hrle hb0⟩

/-- Witness for C5: the theorem applied to a singleton population of value 5
with one cheaper proposal of value 3 and an empty random subsample. -/
theorem circApproxRound_best_nonincreasing_witness :
    ∃ r, bestLength (circApproxRound [⟨none, [[0]], 5⟩]
      [⟨some (0, -1, 1, -1), [[0]], 3⟩] [] 30) = some r ∧ r ≤ 5 :=
  circApproxRound_best_nonincreasing [⟨none, [[0]], 5⟩]
    [⟨some (0, -1, 1, -1), [[0]], 3⟩] [] 30 5 (by norm_num [bestLength])

/-- The character of a decimal digit (0 ≤ d ≤ 9). -/
def digitChar (d : Nat) : Char :=
  Char.ofNat (48 + d)

/-- Most-significant-first decimal digits of a positive number (fuel-driven;
`fuel ≥ n` always suffices). -/
def natCharsAux (fuel n : Nat) : List Char :=
  match fuel with
  | 0 => []
  | f + 1 => if n = 0 then [] else natCharsAux f (n / 10) ++ [digitChar (n % 10)]

/-- Python `str(n)` for a natural number. -/
def natChars (n : Nat) : List Char :=
  if n = 0 then ['0'] else natCharsAux n n

/-- Status values of `mip.OptimizationStatus` distinguished by the circular
exact solver (everything it does not test for is `other`). -/
inductive MipStatus where
  | optimal
  | feasible
  | noSolutionFound
  | infeasible
  | other
deriving DecidableEq

/-- One decision variable `f"B{b},{u},{v}"` of the circular exact model: the
duty slot, the edge endpoints encoded in its name, and the solver's
assignment `var.x` (Python `None` before a solution exists). -/
structure CircVar where
  busNo : Nat
  edgeU : Nat
  edgeV : Nat
  x : Option ℚ

/-- The `f"B{b},{u},{v}"` name of a circular-solver variable. -/
def circVarName (v : CircVar) : String :=
  ⟨'B' :: (natChars v.busNo ++ ',' :: natChars v.edgeU ++
    ',' :: natChars v.edgeV)⟩

/-- The raw dump written to `model.sol` on failure: one
`f"{var.name} {var.x}"` line per solver variable (in order, with the raw,
possibly-None assignment), then the objective value. -/
def solDumpRaw (vars : List CircVar) (objectiveValue : Option ℚ) :
    List (String × Option ℚ) × Option ℚ :=
  (vars.map (fun v => (circVarName v, v.x)), objectiveValue)

/-- The tail of `OptimizeTripsCircularsExact` after `m.optimize()` returns
`status`: on `NO_SOLUTION_FOUND` or `INFEASIBLE` it writes the raw variable
assignment to `model.sol` and raises `Exception("No solution found")`
(modelled as `Except.error` carrying the dump); otherwise it selects the
variables with `abs(var.x - 1) < 2**-4`, groups their edge sources by duty
slot into sets and returns each duty as the sorted list of its trip indices
(the success-path `model.sol` write and the final projection of indices to
`Trip` objects carry no extra information and are not modelled). -/
def circularsExactPostOptimize (status : MipStatus) (vars : List CircVar)
    (objectiveValue : Option ℚ) (buscount : Nat) :
    Except ((List (String × Option ℚ) × Option ℚ) × String)
      (List (List Nat)) :=
  if status = MipStatus.noSolutionFound ∨ status = MipStatus.infeasible then
    Except.error (solDumpRaw vars objectiveValue, "No solution found")
  else
    let combinations := vars.filter
      (fun v => |v.x.getD 0 - 1| < (1 : ℚ) / 16)
    Except.ok ((List.range buscount).map (fun b =>
      List.insertionSort (fun u v => u ≤ v)
        (((combinations.filter (fun v => v.busNo = b)).map
          (fun v => v.edgeU)).dedup)))

/-- C7: when the MILP optimization ends infeasible or without a solution, the
circular exact solver raises a hard error — it never returns a schedule —
and the error carries the full raw variable assignment (one name/value pair
per solver variable, in order, plus the objective) written to `model.sol`
before raising. -/
theorem circularsExact_hard_error (status : MipStatus) (vars : List CircVar)
    (objectiveValue : Option ℚ) (buscount : Nat)
    (h : status = MipStatus.noSolutionFound ∨
      status = MipStatus.infeasible) :
    circularsExactPostOptimize status vars objectiveValue buscount =
      Except.error ((vars.map (fun v => (circVarName v, v.x)),
        objectiveValue), "No solution found") ∧
    ∀ schedules, circularsExactPostOptimize status vars objectiveValue
      buscount ≠ Except.ok schedules := by
  unfold circularsExactPostOptimize
  rw [if_pos h]
  exact ⟨rfl, fun schedules hcontra => Except.noConfusion hcontra⟩

/-- Witness for C7: the theorem applied to an infeasible status with one
unassigned variable. -/
theorem circularsExact_hard_error_witness :
    circularsExactPostOptimize MipStatus.infeasible [⟨0, 0, 1, none⟩] none 1 =
      Except.error (([⟨0, 0, 1, none⟩].map
        (fun v => (circVarName v, v.x)), none), "No solution found") ∧
    ∀ schedules, circularsExactPostOptimize MipStatus.infeasible
      [⟨0, 0, 1, none⟩] none 1 ≠ Except.ok schedules :=
  circularsExact_hard_error MipStatus.infeasible [⟨0, 0, 1, none⟩] none 1
    (Or.inr rfl)

/-- JSON values as stored in the schedule dictionaries. -/
inductive JVal where
  | jInt : Int → JVal
  | jStr : String → JVal
  | jList : List JVal → JVal
  | jDict : List (String × JVal) → JVal

/-- Python truthiness of a JSON value (`if self.Via:`, `if d.get("Day"):`):
zero, the empty string, the empty list and the empty dict are falsy. -/
def jTruthy : JVal → Bool
  | .jInt n => n ≠ 0
  | .jStr s => s ≠ ""
  | .jList xs => !xs.isEmpty
  | .jDict xs => !xs.isEmpty

/-- A Python `datetime.date` (always truthy; the source only ever builds
valid dates, whose year 1–9999 / month / day ranges are not needed for any
statement proved here). -/
structure PyDate where
  year : Nat
  month : Nat
  day : Nat
deriving DecidableEq

/-- The dataclass fields of `Scheduling_Classes.Trip` (the recomputed
`StartTimeMins` / `EndTimeMins` are class attributes, not dataclass fields,
and do not take part in `==`).  `Via` holds the raw JSON list stored under
"Stops" (`Optional[List[Dict]]`, passed through untouched); `Day` is `None`
when absent. -/
structure Trip where
  Line : Int
  TripNo : Int
  StartStop : String
  EndStop : String
  StartTime : String
  EndTime : String
  Via : Option JVal
  Day : Option PyDate

/-- Zero-padded two-digit field of `strftime("%m")` / `strftime("%d")`. -/
def pad2 (n : Nat) : List Char :=
  if (natChars n).length = 1 then '0' :: natChars n else natChars n

/-- Python `date.strftime("%Y-%m-%d")` (glibc prints the year unpadded;
either convention round-trips through the parser below). -/
def pyStrfDate (d : PyDate) : String :=
  ⟨natChars d.year ++ '-' :: (pad2 d.month ++ '-' :: pad2 d.day)⟩

/-- Python `datetime.strptime(s, "%Y-%m-%d").date()`: three nonempty digit
fields separated by dashes (the field-width limits and calendar validation of
the real `strptime` never reject a string that `strftime` produced). -/
def pyStrpDate (s : String) : Option PyDate :=
  match splitCh '-' s.data with
  | [a, b, c] =>
    if decide (a ≠ []) && a.all isDigitCh && decide (b ≠ []) &&
        b.all isDigitCh && decide (c ≠ []) && c.all isDigitCh then
      some ⟨dVal a, dVal b, dVal c⟩
    else none
  | _ => none

theorem dVal_append_singleton (l : List Char) (c : Char) :
    dVal (l ++ [c]) = 10 * dVal l + (c.toNat - 48) := by
  simp [dVal, List.foldl_append]

theorem digitChar_spec (d : Nat) (hd : d < 10) :
    isDigitCh (digitChar d) = true ∧ digitChar d ≠ '-' ∧
      (digitChar d).toNat - 48 = d := by
  interval_cases d <;> exact ⟨by decide, by decide, by decide⟩

theorem natCharsAux_zero (n : Nat) : natCharsAux 0 n = [] := rfl

theorem natCharsAux_succ (f n : Nat) :
    natCharsAux (f + 1) n =
      if n = 0 then [] else natCharsAux f (n / 10) ++ [digitChar (n % 10)] :=
  rfl

theorem natCharsAux_spec :
    ∀ (fuel n : Nat), n ≤ fuel →
      (∀ c ∈ natCharsAux fuel n, isDigitCh c = true ∧ c ≠ '-') ∧
        dVal (natCharsAux fuel n) = n := by
  intro fuel
  induction fuel with
  | zero =>
    intro n hn
    obtain rfl : n = 0 := by omega
    exact ⟨by simp [natCharsAux_zero], by simp [natCharsAux_zero, dVal]⟩
  | succ f ih =>
    intro n hn
    by_cases hz : n = 0
    · subst hz
      exact ⟨by simp [natCharsAux_succ], by simp [natCharsAux_succ, dVal]⟩
    · have hlt : n / 10 < n := Nat.div_lt_self (by omega) (by omega)
      obtain ⟨ihm, ihv⟩ := ih (n / 10) (by omega)
      have hmod : n % 10 < 10 := Nat.mod_lt _ (by omega)
      obtain ⟨hdig, hdash, hval⟩ := digitChar_spec (n % 10) hmod
      constructor
      · intro c hc
        rw [natCharsAux_succ, if_neg hz] at hc
        rcases List.mem_append.mp hc with hmem | hmem
        · exact ihm c hmem
        · obtain rfl : c = digitChar (n % 10) := by simpa using hmem
          exact ⟨hdig, hdash⟩
      · rw [natCharsAux_succ, if_neg hz, dVal_append_singleton, ihv, hval]
        omega

theorem natChars_spec (n : Nat) :
    (∀ c ∈ natChars n, isDigitCh c = true ∧ c ≠ '-') ∧
      dVal (natChars n) = n ∧ natChars n ≠ [] := by
  by_cases hz : n = 0
  · subst hz
    refine ⟨?_, by simp [natChars, dVal], by simp [natChars]⟩
    intro c hc
    have hc0 : c = '0' := by simpa [natChars] using hc
    subst hc0
    exact ⟨by decide, by decide⟩
  · obtain ⟨hmem, hval⟩ := natCharsAux_spec n n (le_refl n)
    have hnc : natChars n = natCharsAux n n := by simp [natChars, hz]
    refine ⟨?_, ?_, ?_⟩
    · intro c hc
      rw [hnc] at hc
      exact hmem c hc
    · rw [hnc, hval]
    · rw [hnc]
      obtain ⟨f, rfl⟩ : ∃ f, n = f + 1 := ⟨n - 1, by omega⟩
      rw [natCharsAux_succ, if_neg hz]
      simp

theorem dVal_cons_zero (l : List Char) : dVal ('0' :: l) = dVal l := by
  simp [dVal]

theorem pad2_spec (n : Nat) :
    (∀ c ∈ pad2 n, isDigitCh c = true ∧ c ≠ '-') ∧
      dVal (pad2 n) = n ∧ pad2 n ≠ [] := by
  obtain ⟨hmem, hval, hne⟩ := natChars_spec n
  unfold pad2
  by_cases hlen : (natChars n).length = 1
  · rw [if_pos hlen]
    refine ⟨?_, by rw [dVal_cons_zero, hval], by simp⟩
    intro c hc
    rcases List.mem_cons.mp hc with rfl | hmem2
    · exact ⟨by decide, by decide⟩
    · exact hmem c hmem2
  · rw [if_neg hlen]
    exact ⟨hmem, hval, hne⟩

theorem pyStrpDate_pyStrfDate (d : PyDate) :
    pyStrpDate (pyStrfDate d) = some d := by
  obtain ⟨hy, hyv, hyne⟩ := natChars_spec d.year
  obtain ⟨hm, hmv, hmne⟩ := pad2_spec d.month
  obtain ⟨hd, hdv, hdne⟩ := pad2_spec d.day
  have hdata : (pyStrfDate d).data =
      natChars d.year ++ '-' :: (pad2 d.month ++ '-' :: pad2 d.day) := rfl
  unfold pyStrpDate
  rw [hdata, splitCh_append '-' _ _ (fun c hc => (hy c hc).2),
    splitCh_append '-' _ _ (fun c hc => (hm c hc).2),
    splitCh_no_sep '-' _ (fun c hc => (hd c hc).2)]
  have hcond : (decide (natChars d.year ≠ []) &&
      (natChars d.year).all isDigitCh && decide (pad2 d.month ≠ []) &&
      (pad2 d.month).all isDigitCh && decide (pad2 d.day ≠ []) &&
      (pad2 d.day).all isDigitCh) = true := by
    simp only [Bool.and_eq_true, decide_eq_true_eq, List.all_eq_true]
    exact ⟨⟨⟨⟨⟨hyne, fun c hc => (hy c hc).1⟩, hmne⟩,
      fun c hc => (hm c hc).1⟩, hdne⟩, fun c hc => (hd c hc).1⟩
  dsimp only
  rw [if_pos hcond, hyv, hmv, hdv]

/-- Python dict lookup `d.get(k)` / `d[k]` on a string-keyed JSON dict (keys
are unique in every dict built here; first match wins). -/
def dGet (d : List (String × JVal)) (k : String) : Option JVal :=
  (d.find? (fun kv => kv.1 == k)).map (fun kv => kv.2)

def asInt : JVal → Option Int
  | .jInt n => some n
  | _ => none

def asStr : JVal → Option String
  | .jStr s => some s
  | _ => none

def asList : JVal → Option (List JVal)
  | .jList xs => some xs
  | _ => none

def asDict : JVal → Option (List (String × JVal))
  | .jDict xs => some xs
  | _ => none

/-- `Trip.ToDictForJson`: the `"Day"` entry is present iff `self.Day` is set
(dates are always truthy), then the six plain fields in source order, then
the `"Stops"` entry iff `self.Via` is truthy (non-`None` and nonempty). -/
def tripToDictForJson (t : Trip) : List (String × JVal) :=
  (match t.Day with
   | some dt => [("Day", JVal.jStr (pyStrfDate dt))]
   | none => []) ++
  [("Line", JVal.jInt t.Line), ("Trip", JVal.jInt t.TripNo),
   ("Start stop", JVal.jStr t.StartStop), ("End stop", JVal.jStr t.EndStop),
   ("Start time", JVal.jStr t.StartTime), ("End time", JVal.jStr t.EndTime)] ++
  (match t.Via with
   | some v => if jTruthy v then [("Stops", v)] else []
   | none => [])

/-- `Trip.FromDictForJson`: the six mandatory keys raise `KeyError` when
absent (and the constructor expects their payloads); `Via = d.get("Stops")`
is passed through untouched; `Day` is parsed with `strptime` when present
and truthy, else `None`. -/
def fromDictForJson (d : List (String × JVal)) : Option Trip := do
  let line ← (dGet d "Line").bind asInt
  let tripNo ← (dGet d "Trip").bind asInt
  let ss ← (dGet d "Start stop").bind asStr
  let es ← (dGet d "End stop").bind asStr
  let st ← (dGet d "Start time").bind asStr
  let et ← (dGet d "End time").bind asStr
  let day ← match dGet d "Day" with
    | some v =>
      if jTruthy v then
        match v with
        | .jStr s => (pyStrpDate s).map some
        | _ => none
      else some none
    | none => some none
  some (Trip.mk line tripNo ss es st et (dGet d "Stops") day)

theorem pyStrfDate_ne_empty (d : PyDate) : pyStrfDate d ≠ "" := by
  intro h
  obtain ⟨-, -, hne⟩ := natChars_spec d.year
  have hdata : (pyStrfDate d).data =
      natChars d.year ++ '-' :: (pad2 d.month ++ '-' :: pad2 d.day) := rfl
  rw [h] at hdata
  simp at hdata

/-- Round trip of a single trip record through its JSON dictionary: identity
whenever `Via` is not a falsy value (`None` is fine, `[]` is not). -/
theorem fromDict_toDict (t : Trip)
    (hvia : ∀ v, t.Via = some v → jTruthy v = true) :
    fromDictForJson (tripToDictForJson t) = some t := by
  obtain ⟨lf, tnf, ssf, esf, stf, etf, viaf, dayf⟩ := t
  cases dayf with
  | none =>
    cases viaf with
    | none =>
      simp +decide [fromDictForJson, tripToDictForJson, dGet, asInt, asStr,
        List.find?]
    | some v =>
      have htr := hvia v rfl
      simp +decide [fromDictForJson, tripToDictForJson, dGet, asInt, asStr,
        htr, List.find?]
  | some dt =>
    have hdt : jTruthy (JVal.jStr (pyStrfDate dt)) = true := by
      simp [jTruthy, pyStrfDate_ne_empty dt]
    cases viaf with
    | none =>
      simp +decide [fromDictForJson, tripToDictForJson, dGet, asInt, asStr,
        List.find?, hdt, pyStrpDate_pyStrfDate]
    | some v =>
      have htr := hvia v rfl
      simp +decide [fromDictForJson, tripToDictForJson, dGet, asInt, asStr,
        htr, List.find?, hdt, pyStrpDate_pyStrfDate]

/-- An `Option`-valued list comprehension: first failure (raised exception)
aborts the whole comprehension. -/
def mapOption (f : α → Option β) (l : List α) : Option (List β) :=
  match l with
  | [] => some []
  | x :: xs => do
    let y ← f x
    let ys ← mapOption f xs
    pure (y :: ys)

theorem mapOption_cons (f : α → Option β) (x : α) (xs : List α) :
    mapOption f (x :: xs) =
      (f x).bind (fun y => (mapOption f xs).bind
        (fun ys => some (y :: ys))) := rfl

theorem mapOption_map_id (f : β → Option α) (g : α → β) :
    ∀ l : List α, (∀ x ∈ l, f (g x) = some x) →
      mapOption f (l.map g) = some l := by
  intro l
  induction l with
  | nil => intro _; rfl
  | cons x xs ih =>
    intro h
    rw [List.map_cons, mapOption_cons, h x (by simp),
      ih (fun y hy => h y (List.mem_cons_of_mem _ hy))]
    rfl

/-- Python dict assignment `d[k] = v`: overwrite in place when the key
exists, else append. -/
def dictSet (d : List (String × JVal)) (k : String) (v : JVal) :
    List (String × JVal) :=
  if d.any (fun kv => kv.1 == k) then
    d.map (fun kv => if kv.1 == k then (kv.1, v) else kv)
  else d ++ [(k, v)]

/-- The `"Bus schedules"` payload of `SchedulesToJsonDict`: one
`{"Bus": i+1, "Trips": [...]}` dict per duty, in order. -/
def busDictsFrom (i : Nat) (schedule : List (List Trip)) : List JVal :=
  match schedule with
  | [] => []
  | bus :: rest =>
    JVal.jDict [("Bus", JVal.jInt (Int.ofNat (i + 1))),
      ("Trips", JVal.jList (bus.map (fun t =>
        JVal.jDict (tripToDictForJson t))))] :: busDictsFrom (i + 1) rest

/-- `Schedule_Rendering.SchedulesToJsonDict`: copy the argument dict and set
`res["Bus schedules"]` to the per-duty trip dictionaries. -/
def schedulesToJsonDict (schedule : List (List Trip))
    (scheduleArgs : List (String × JVal)) : List (String × JVal) :=
  dictSet scheduleArgs "Bus schedules" (JVal.jList (busDictsFrom 0 schedule))

/-- Parse one `{"Bus": …, "Trips": […]}` entry back into a duty
(`b["Trips"]` raises on a non-dict entry or missing key). -/
def parseBusEntry (b : JVal) : Option (List Trip) := do
  let entries ← asDict b
  let ts ← (dGet entries "Trips").bind asList
  mapOption (fun td => (asDict td).bind fromDictForJson) ts

/-- `Schedule_Rendering.SchedulesFromJsonDict`: split the dict into the
argument entries (every key except `"Bus schedules"`) and the re-parsed duty
lists (`KeyError` / malformed payloads raise, i.e. `none`). -/
def schedulesFromJsonDict (schedules : List (String × JVal)) :
    Option (List (List Trip) × List (String × JVal)) := do
  let args := schedules.filter (fun kv => !(kv.1 == "Bus schedules"))
  let bs ← dGet schedules "Bus schedules"
  let buses ← asList bs
  let res ← mapOption parseBusEntry buses
  pure (res, args)

theorem busDictsFrom_cons (i : Nat) (bus : List Trip)
    (rest : List (List Trip)) :
    busDictsFrom i (bus :: rest) =
      JVal.jDict [("Bus", JVal.jInt (Int.ofNat (i + 1))),
        ("Trips", JVal.jList (bus.map (fun t =>
          JVal.jDict (tripToDictForJson t))))] :: busDictsFrom (i + 1) rest :=
  rfl

theorem busDictsFrom_parses {schedule : List (List Trip)}
    (hbus : ∀ bus ∈ schedule, ∀ t ∈ bus,
      ∀ v, t.Via = some v → jTruthy v = true) :
    ∀ i, mapOption parseBusEntry (busDictsFrom i schedule) = some schedule := by
  induction schedule with
  | nil => intro i; rfl
  | cons bus rest ih =>
    intro i
    have hts : mapOption (fun td => (asDict td).bind fromDictForJson)
        (bus.map (fun t => JVal.jDict (tripToDictForJson t))) = some bus := by
      apply mapOption_map_id
      intro t ht
      simp only [asDict, Option.some_bind]
      exact fromDict_toDict t (hbus bus (by simp) t ht)
    have hhead : parseBusEntry
        (JVal.jDict [("Bus", JVal.jInt (Int.ofNat (i + 1))),
          ("Trips", JVal.jList (bus.map (fun t =>
            JVal.jDict (tripToDictForJson t))))]) = some bus := by
      simp only [parseBusEntry, asDict, Option.bind_eq_bind, Option.some_bind,
        dGet]
      rw [List.find?_cons_of_neg _ (by simp),
        List.find?_cons_of_pos _ (by simp)]
      simp only [Option.map_some', Option.some_bind, asList]
      exact hts
    rw [busDictsFrom_cons, mapOption_cons, hhead,
      ih (fun b hb => hbus b (List.mem_cons_of_mem _ hb)) (i + 1)]
    rfl

/-- C8 (amended): a `Trip` survives the JSON dictionary round trip whenever
its `Via` field is not a falsy value — `Via = None` round-trips, but
`Via = []` serializes to an absent `"Stops"` key and deserializes as `None`
(see the counterexample) — and a schedule plus argument dictionary survives
`SchedulesToJsonDict` / `SchedulesFromJsonDict` whenever additionally no
argument key is the reserved `"Bus schedules"` (which serialization
overwrites and parsing strips). -/
theorem schedules_roundtrip :
    (∀ t : Trip, (∀ v, t.Via = some v → jTruthy v = true) →
      fromDictForJson (tripToDictForJson t) = some t) ∧
    (∀ (schedule : List (List Trip)) (scheduleArgs : List (String × JVal)),
      (∀ bus ∈ schedule, ∀ t ∈ bus, ∀ v, t.Via = some v → jTruthy v = true) →
      (∀ kv ∈ scheduleArgs, kv.1 ≠ "Bus schedules") →
      schedulesFromJsonDict (schedulesToJsonDict schedule scheduleArgs) =
        some (schedule, scheduleArgs)) := by
  refine ⟨fromDict_toDict, ?_⟩
  intro schedule args hvia hkeys
  unfold schedulesToJsonDict schedulesFromJsonDict
  have hset : dictSet args "Bus schedules"
      (JVal.jList (busDictsFrom 0 schedule)) =
      args ++ [("Bus schedules", JVal.jList (busDictsFrom 0 schedule))] := by
    unfold dictSet
    rw [if_neg]
    intro hany
    obtain ⟨kv, hmem, hbeq⟩ := List.any_eq_true.mp hany
    exact hkeys kv hmem (by simpa using hbeq)
  have hfil : (args ++ [("Bus schedules",
        JVal.jList (busDictsFrom 0 schedule))]).filter
        (fun kv => !(kv.1 == "Bus schedules")) = args := by
    rw [List.filter_append,
      List.filter_eq_self.mpr (fun kv hm => by simpa using hkeys kv hm)]
    simp
  have hget : dGet (args ++ [("Bus schedules",
      JVal.jList (busDictsFrom 0 schedule))]) "Bus schedules" =
      some (JVal.jList (busDictsFrom 0 schedule)) := by
    unfold dGet
    rw [List.find?_append,
      List.find?_eq_none.mpr (fun kv hm => by simpa using hkeys kv hm)]
    simp
  rw [hset]
  simp only [hfil, hget, Option.bind_eq_bind, Option.some_bind, asList,
    busDictsFrom_parses hvia 0]
  rfl

/-- Witness for C8: the theorem applied to a one-duty, one-trip schedule with
one argument entry. -/
theorem schedules_roundtrip_witness :
    schedulesFromJsonDict (schedulesToJsonDict
      [[Trip.mk 1 2 "A" "B" "7:00" "7:30" none none]]
      [("depot", JVal.jStr "X")]) =
      some ([[Trip.mk 1 2 "A" "B" "7:00" "7:30" none none]],
        [("depot", JVal.jStr "X")]) :=
  schedules_roundtrip.2 [[Trip.mk 1 2 "A" "B" "7:00" "7:30" none none]]
    [("depot", JVal.jStr "X")]
    (by
      intro bus hb t ht v hv
      simp only [List.mem_singleton] at hb
      subst hb
      simp only [List.mem_singleton] at ht
      subst ht
      exact absurd hv (by simp))
    (by
      intro kv hm
      simp only [List.mem_singleton] at hm
      subst hm
      decide)

/-- C8 counterexample: a trip with `Via = []` (an empty but non-`None` stop
list) does not round-trip — serialization drops the falsy `"Stops"` entry and
deserialization yields `Via = None`, a different record. -/
theorem trip_via_empty_not_roundtrip :
    fromDictForJson (tripToDictForJson
      (Trip.mk 1 2 "A" "B" "7:00" "7:30" (some (JVal.jList [])) none)) =
      some (Trip.mk 1 2 "A" "B" "7:00" "7:30" none none) ∧
    Trip.mk 1 2 "A" "B" "7:00" "7:30" none none ≠
      Trip.mk 1 2 "A" "B" "7:00" "7:30" (some (JVal.jList [])) none := by
  constructor
  · rfl
  · intro h
    simp only [Trip.mk.injEq] at h
    exact Option.noConfusion h.2.2.2.2.2.2.1

/-- Lexicographic order on edge tuples, as Python `list.sort()` compares
them in `ConvertEdgesToBuses` (`edges.sort()`). -/
def edgeLe (p q : Nat × Nat) : Prop :=
  p.1 < q.1 ∨ (p.1 = q.1 ∧ p.2 ≤ q.2)

instance : DecidableRel edgeLe := fun p q => by
  unfold edgeLe; infer_instance

instance : IsTotal (Nat × Nat) edgeLe :=
  ⟨fun p q => by unfold edgeLe; omega⟩

instance : IsTrans (Nat × Nat) edgeLe :=
  ⟨fun p q r hpq hqr => by unfold edgeLe at *; omega⟩

/-- The presentation order `key=lambda bs: (-len(bs), bs[0])`: strictly
longer duties first, ties by ascending first trip index. -/
def busOrd (a b : List Nat) : Prop :=
  b.length < a.length ∨ (a.length = b.length ∧ a.headD 0 ≤ b.headD 0)

instance : DecidableRel busOrd := fun a b => by
  unfold busOrd; infer_instance

instance : IsTotal (List Nat) busOrd :=
  ⟨fun a b => by unfold busOrd; omega⟩

instance : IsTrans (List Nat) busOrd :=
  ⟨fun a b c hab hbc => by unfold busOrd at *; omega⟩

/-- `buses.sort(key=lambda bs: (-len(bs), bs[0]))`. -/
def sortBuses (buses : List (List Nat)) : List (List Nat) :=
  List.insertionSort busOrd buses

/-- Python dict assignment for the `{u: v for u, v in edges}` comprehension:
overwrite an existing key in place, else append. -/
def dictInsertNat (acc : List (Nat × Nat)) (p : Nat × Nat) :
    List (Nat × Nat) :=
  if acc.any (fun q => q.1 == p.1) then
    acc.map (fun q => if q.1 == p.1 then (q.1, p.2) else q)
  else acc ++ [p]

/-- `be = {u: v for u, v in edges}` built in iteration order. -/
def buildBe (edges : List (Nat × Nat)) : List (Nat × Nat) :=
  edges.foldl dictInsertNat []

/-- `be.get(k)` (`None` when the key is absent). -/
def beGet (be : List (Nat × Nat)) (k : Nat) : Option Nat :=
  (be.find? (fun q => q.1 == k)).map (fun q => q.2)

/-- The `while v := be.get(v):` loop of `ConvertEdgesToBuses`, fuel-driven
(`none` = the source loop does not terminate within `fuel` iterations;
every terminating Python run fits in the fuel supplied below).  Mirrors the
walrus semantics: an absent successor or the falsy successor `0` stops the
loop before touching `used`; a successor `≥ tripsCount` is added to `used`
but not to the chain, and breaks. -/
def walkLoop (be : List (Nat × Nat)) (tripsCount fuel v : Nat)
    (current : List Nat) (used : Finset Nat) :
    Option (List Nat × Finset Nat) :=
  match fuel with
  | 0 => none
  | f + 1 =>
    match beGet be v with
    | none => some (current, used)
    | some w =>
      if w = 0 then some (current, used)
      else
        if tripsCount ≤ w then some (current, insert w used)
        else walkLoop be tripsCount f w (current ++ [w]) (insert w used)

/-- The `for u, v in be.items():` loop of `ConvertEdgesToBuses`. -/
def chainsLoop (be : List (Nat × Nat)) (tripsCount fuel : Nat)
    (items : List (Nat × Nat)) (used : Finset Nat)
    (chains : List (List Nat)) : Option (Finset Nat × List (List Nat)) :=
  match items with
  | [] => some (used, chains)
  | (u, v) :: rest =>
    if u ∈ used ∨ v ∈ used then
      chainsLoop be tripsCount fuel rest used chains
    else
      match walkLoop be tripsCount fuel v [u, v]
          (insert u (insert v used)) with
      | none => none
      | some (cur, used2) =>
        chainsLoop be tripsCount fuel rest used2 (chains ++ [cur])

/-- `Scheduling_Main.ConvertEdgesToBuses`: sort the edges, build the
successor dict, chain from every unused edge following successors, make the
uncovered trips single-trip duties, and sort for presentation.  The result
is `none` exactly when the source's `while` loop diverges (possible for a
cyclic successor relation, which no claim's hypotheses allow). -/
def convertEdgesToBuses (tripsCount : Nat) (edges : List (Nat × Nat)) :
    Option (List (List Nat)) :=
  let be := buildBe (List.insertionSort edgeLe edges)
  match chainsLoop be tripsCount (tripsCount + edges.length + 2) be ∅ [] with
  | none => none
  | some (used, chains) =>
    let solo := (List.range tripsCount).filter (fun i => i ∉ used)
    some (sortBuses (chains ++ solo.map (fun i => [i])))

/-- The tail of `OptimizeTripsCircularApprox` after the iteration loop:
`_, buses, length, _ = solutions[0]` followed by the presentation sort of
`buses` (an `IndexError` on an empty population is `none`). -/
def circularApproxFinalize (solutions : List CircSolution) :
    Option (List (List Nat)) :=
  (pyGet solutions 0).map (fun s => sortBuses s.buses)

/-- C9: both duty lists end with the presentation sort: whenever
`ConvertEdgesToBuses` returns, its duty list is sorted by descending duty
length with ties broken by ascending index of the duty's first trip, and the
duty list returned by the circular local-search solver is sorted by the same
key. -/
theorem duties_presentation_sorted :
    (∀ (tripsCount : Nat) (edges : List (Nat × Nat))
        (buses : List (List Nat)),
        convertEdgesToBuses tripsCount edges = some buses →
        List.Sorted busOrd buses) ∧
    (∀ (solutions : List CircSolution) (buses : List (List Nat)),
        circularApproxFinalize solutions = some buses →
        List.Sorted busOrd buses) := by
  constructor
  · intro tripsCount edges buses h
    simp only [convertEdgesToBuses] at h
    cases hc : chainsLoop (buildBe (List.insertionSort edgeLe edges))
        tripsCount (tripsCount + edges.length + 2)
        (buildBe (List.insertionSort edgeLe edges)) ∅ [] with
    | none => rw [hc] at h; exact absurd h (by simp)
    | some p =>
      obtain ⟨used, chains⟩ := p
      rw [hc] at h
      have hb : buses = sortBuses (chains ++
          (((List.range tripsCount).filter (fun i => i ∉ used)).map
            (fun i => [i]))) := (Option.some_inj.mp h).symm
      rw [hb]
      exact List.sorted_insertionSort busOrd _
  · intro solutions buses h
    unfold circularApproxFinalize at h
    cases hp : pyGet solutions 0 with
    | none => rw [hp] at h; exact absurd h (by simp)
    | some s =>
      rw [hp] at h
      have hb : buses = sortBuses s.buses := by
        simpa using (Option.some_inj.mp (by simpa using h)).symm
      rw [hb]
      exact List.sorted_insertionSort busOrd _

/-- Witness for C9: the theorem applied to a concrete chained instance and a
concrete final population. -/
theorem duties_presentation_sorted_witness :
    List.Sorted busOrd [[0, 1], [2]] ∧
      List.Sorted busOrd [[1, 2], [5], [7]] :=
  ⟨duties_presentation_sorted.1 3 [(0, 1)] [[0, 1], [2]] (by decide),
   duties_presentation_sorted.2 [⟨none, [[7], [5], [1, 2]], 0⟩]
     [[1, 2], [5], [7]] (by decide)⟩

/-- C3 counterexample: the matching edges (3,2), (2,1), (1,4) — each trip
index occurs at most once as a source and at most once as a target, all
indices below the trip count 5 — produce the duty list
[[3,2,1,4],[1,4],[0]]: trips 1 and 4 appear in two duties, so the duties do
not partition {0..4}.  (The `while` walk never re-checks `used`, so the
chain started at the edge (2,1) — processed after (1,4) in sorted key order
— walks into trips 1 and 4 already covered by the chain of key 1.) -/
theorem convertEdgesToBuses_not_partition :
    ((([(3, 2), (2, 1), (1, 4)] : List (Nat × Nat)).map Prod.fst).Nodup ∧
      (([(3, 2), (2, 1), (1, 4)] : List (Nat × Nat)).map Prod.snd).Nodup ∧
      ∀ p ∈ ([(3, 2), (2, 1), (1, 4)] : List (Nat × Nat)),
        p.1 < 5 ∧ p.2 < 5) ∧
    convertEdgesToBuses 5 [(3, 2), (2, 1), (1, 4)] =
      some [[3, 2, 1, 4], [1, 4], [0]] ∧
    ([[3, 2, 1, 4], [1, 4], [0]] : List (List Nat)).flatten.count 1 = 2 := by
  refine ⟨⟨by decide, by decide, by decide⟩, by decide, by decide⟩

theorem foldl_dictInsertNat :
    ∀ (l acc : List (Nat × Nat)),
      ((acc ++ l).map Prod.fst).Nodup →
      l.foldl dictInsertNat acc = acc ++ l := by
  intro l
  induction l with
  | nil => intro acc _; simp
  | cons p l ih =>
    intro acc h
    have hnot : p.1 ∉ acc.map Prod.fst := by
      intro hmem
      rw [List.map_append, List.map_cons] at h
      have hdisj := List.disjoint_of_nodup_append h
      exact hdisj hmem (by simp)
    have hins : dictInsertNat acc p = acc ++ [p] := by
      unfold dictInsertNat
      rw [if_neg]
      intro hany
      obtain ⟨q, hq, hbeq⟩ := List.any_eq_true.mp hany
      exact hnot (by
        have : q.1 = p.1 := by simpa using hbeq
        exact this ▸ List.mem_map_of_mem Prod.fst hq)
    rw [List.foldl_cons, hins, ih (acc ++ [p]) (by simpa using h)]
    simp

theorem buildBe_of_nodup (edges : List (Nat × Nat))
    (h : (edges.map Prod.fst).Nodup) : buildBe edges = edges := by
  simpa using foldl_dictInsertNat edges [] (by simpa using h)

theorem beGet_eq_some_of_mem :
    ∀ (be : List (Nat × Nat)), (be.map Prod.fst).Nodup →
      ∀ u w, (u, w) ∈ be → beGet be u = some w := by
  intro be
  induction be with
  | nil => intro _ u w hm; simp at hm
  | cons q rest ih =>
    intro hk u w hm
    obtain ⟨a, b⟩ := q
    rcases List.mem_cons.mp hm with heq | hmem
    · injection heq with h1 h2
      subst h1
      subst h2
      unfold beGet
      rw [List.find?_cons_of_pos _ (by simp)]
      rfl
    · have hne : a ≠ u := by
        intro hau
        rw [List.map_cons] at hk
        have hnd := (List.nodup_cons.mp hk).1
        have hmemf : u ∈ rest.map Prod.fst :=
          List.mem_map_of_mem Prod.fst hmem
        rw [show ((a, b) : Nat × Nat).1 = a from rfl, hau] at hnd
        exact hnd hmemf
      unfold beGet
      rw [List.find?_cons_of_neg _ (by simpa using hne)]
      exact ih (by
        rw [List.map_cons] at hk
        exact (List.nodup_cons.mp hk).2) u w hmem

theorem beGet_some_mem (be : List (Nat × Nat)) (u w : Nat)
    (h : beGet be u = some w) : (u, w) ∈ be := by
  unfold beGet at h
  cases hf : be.find? (fun q => q.1 == u) with
  | none => rw [hf] at h; simp at h
  | some q =>
    rw [hf] at h
    have hq1 : q.1 = u := by simpa using List.find?_some hf
    have hq2 : q.2 = w := by simpa using h
    have hqm : q ∈ be := List.mem_of_find?_eq_some hf
    have : q = (u, w) := by
      obtain ⟨q1, q2⟩ := q
      simp_all
    exact this ▸ hqm

theorem beGet_eq_none_of_not_key (be : List (Nat × Nat)) (u : Nat)
    (h : u ∉ be.map Prod.fst) : beGet be u = none := by
  unfold beGet
  rw [List.find?_eq_none.mpr]
  · rfl
  · intro q hq hbeq
    exact h (by
      have : q.1 = u := by simpa using hbeq
      exact this ▸ List.mem_map_of_mem Prod.fst hq)

theorem beGet_injective (be : List (Nat × Nat))
    (ht : (be.map Prod.snd).Nodup) (a b c : Nat)
    (ha : beGet be a = some c) (hb : beGet be b = some c) : a = b := by
  have hma := beGet_some_mem be a c ha
  have hmb := beGet_some_mem be b c hb
  have := List.inj_on_of_nodup_map ht hma hmb rfl
  simpa using congrArg Prod.fst this

/-- The successor chain of the `while` walk: the values visited from `v`
(fuel-driven; fuel `n` is always enough for an ascending successor map
bounded by `n`). -/
def beOrbit (be : List (Nat × Nat)) (fuel v : Nat) : List Nat :=
  match fuel with
  | 0 => []
  | f + 1 =>
    match beGet be v with
    | none => []
    | some w => w :: beOrbit be f w

theorem beOrbit_zero (be : List (Nat × Nat)) (v : Nat) :
    beOrbit be 0 v = [] := rfl

theorem beOrbit_succ_none {be : List (Nat × Nat)} {v : Nat} (f : Nat)
    (h : beGet be v = none) : beOrbit be (f + 1) v = [] := by
  simp only [beOrbit, h]

theorem beOrbit_succ_some {be : List (Nat × Nat)} {v w : Nat} (f : Nat)
    (h : beGet be v = some w) :
    beOrbit be (f + 1) v = w :: beOrbit be f w := by
  simp only [beOrbit, h]

theorem beOrbit_mem_bounds {be : List (Nat × Nat)} {n : Nat}
    (hInc : ∀ u w, beGet be u = some w → u < w ∧ w < n) :
    ∀ fuel v x, x ∈ beOrbit be fuel v → v < x ∧ x < n := by
  intro fuel
  induction fuel with
  | zero => intro v x hx; simp [beOrbit_zero] at hx
  | succ f ih =>
    intro v x hx
    cases hb : beGet be v with
    | none => rw [beOrbit_succ_none f hb] at hx; simp at hx
    | some w =>
      rw [beOrbit_succ_some f hb] at hx
      obtain ⟨hvw, hwn⟩ := hInc v w hb
      rcases List.mem_cons.mp hx with rfl | hmem
      · exact ⟨hvw, hwn⟩
      · obtain ⟨hwx, hxn⟩ := ih w x hmem
        exact ⟨by omega, hxn⟩

theorem beOrbit_stable {be : List (Nat × Nat)} {n : Nat}
    (hInc : ∀ u w, beGet be u = some w → u < w ∧ w < n) :
    ∀ fuel fuel2 v, n ≤ fuel + v → n ≤ fuel2 + v →
      beOrbit be fuel v = beOrbit be fuel2 v := by
  intro fuel
  induction fuel with
  | zero =>
    intro fuel2 v h1 h2
    cases hb : beGet be v with
    | none =>
      cases fuel2 with
      | zero => rfl
      | succ g => rw [beOrbit_succ_none g hb]; rfl
    | some w =>
      obtain ⟨hvw, hwn⟩ := hInc v w hb
      omega
  | succ f ih =>
    intro fuel2 v h1 h2
    cases hb : beGet be v with
    | none =>
      cases fuel2 with
      | zero => rw [beOrbit_succ_none f hb]; rfl
      | succ g => rw [beOrbit_succ_none f hb, beOrbit_succ_none g hb]
    | some w =>
      obtain ⟨hvw, hwn⟩ := hInc v w hb
      cases fuel2 with
      | zero => omega
      | succ g =>
        rw [beOrbit_succ_some f hb, beOrbit_succ_some g hb]
        rw [ih g w (by omega) (by omega)]

theorem beOrbit_step {be : List (Nat × Nat)} {n : Nat}
    (hInc : ∀ u w, beGet be u = some w → u < w ∧ w < n)
    (v w : Nat) (h : beGet be v = some w) :
    beOrbit be n v = w :: beOrbit be n w := by
  obtain ⟨hvw, hwn⟩ := hInc v w h
  cases hn : n with
  | zero => omega
  | succ m =>
    subst hn
    rw [beOrbit_succ_some m h]
    rw [beOrbit_stable hInc m (m + 1) w (by omega) (by omega)]

theorem beOrbit_closure {be : List (Nat × Nat)} {n : Nat}
    (hInc : ∀ u w, beGet be u = some w → u < w ∧ w < n) :
    ∀ fuel h t u, n ≤ fuel + h → t ∈ beOrbit be fuel h →
      beGet be t = some u → u ∈ beOrbit be fuel h := by
  intro fuel
  induction fuel with
  | zero => intro h t u _ ht; simp [beOrbit_zero] at ht
  | succ f ih =>
    intro h t u hle ht hu
    cases hb : beGet be h with
    | none => rw [beOrbit_succ_none f hb] at ht; simp at ht
    | some w =>
      rw [beOrbit_succ_some f hb] at ht ⊢
      obtain ⟨hhw, hwn⟩ := hInc h w hb
      rcases List.mem_cons.mp ht with rfl | hmem
      · obtain ⟨htu, hun⟩ := hInc t u hu
        cases hf : f with
        | zero => omega
        | succ g =>
          refine List.mem_cons_of_mem _ ?_
          rw [beOrbit_succ_some g hu]
          simp
      · exact List.mem_cons_of_mem _ (ih w t u (by omega) hmem hu)

theorem beOrbit_pred {be : List (Nat × Nat)} :
    ∀ fuel h x, x ∈ beOrbit be fuel h →
      ∃ p, (p = h ∨ p ∈ beOrbit be fuel h) ∧ beGet be p = some x := by
  intro fuel
  induction fuel with
  | zero => intro h x hx; simp [beOrbit_zero] at hx
  | succ f ih =>
    intro h x hx
    cases hb : beGet be h with
    | none => rw [beOrbit_succ_none f hb] at hx; simp at hx
    | some w =>
      rw [beOrbit_succ_some f hb] at hx
      rcases List.mem_cons.mp hx with rfl | hmem
      · exact ⟨h, Or.inl rfl, hb⟩
      · obtain ⟨p, hp, hpx⟩ := ih w x hmem
        rcases hp with rfl | hpm
        · refine ⟨p, Or.inr ?_, hpx⟩
          rw [beOrbit_succ_some f hb]; simp
        · refine ⟨p, Or.inr ?_, hpx⟩
          rw [beOrbit_succ_some f hb]
          exact List.mem_cons_of_mem _ hpm

theorem beOrbit_mem_targets {be : List (Nat × Nat)} (fuel h x : Nat)
    (hx : x ∈ beOrbit be fuel h) : x ∈ be.map Prod.snd := by
  obtain ⟨p, -, hpx⟩ := beOrbit_pred fuel h x hx
  exact List.mem_map_of_mem Prod.snd (beGet_some_mem be p x hpx)

theorem beOrbit_chain_sorted {be : List (Nat × Nat)} {n : Nat}
    (hInc : ∀ u w, beGet be u = some w → u < w ∧ w < n) :
    ∀ fuel v, List.Sorted (· < ·) (v :: beOrbit be fuel v) := by
  intro fuel
  induction fuel with
  | zero => intro v; simp [beOrbit_zero]
  | succ f ih =>
    intro v
    cases hb : beGet be v with
    | none => rw [beOrbit_succ_none f hb]; simp
    | some w =>
      rw [beOrbit_succ_some f hb]
      obtain ⟨hvw, -⟩ := hInc v w hb
      rw [List.sorted_cons]
      refine ⟨?_, ih w⟩
      intro b hb2
      rcases List.mem_cons.mp hb2 with rfl | hmem
      · exact hvw
      · obtain ⟨hwb, -⟩ := beOrbit_mem_bounds hInc f w b hmem
        omega

theorem walkLoop_succ_none {be : List (Nat × Nat)} {n v : Nat} (f : Nat)
    (cur : List Nat) (used : Finset Nat) (h : beGet be v = none) :
    walkLoop be n (f + 1) v cur used = some (cur, used) := by
  simp only [walkLoop, h]

theorem walkLoop_succ_some {be : List (Nat × Nat)} {n v w : Nat} (f : Nat)
    (cur : List Nat) (used : Finset Nat) (h : beGet be v = some w) :
    walkLoop be n (f + 1) v cur used =
      if w = 0 then some (cur, used)
      else if n ≤ w then some (cur, insert w used)
      else walkLoop be n f w (cur ++ [w]) (insert w used) := by
  simp only [walkLoop, h]

/-- When every successor strictly increases below the trip count `n`, the
`while` walk terminates within any fuel `≥ n - v`, appends exactly the
successor chain of `v` to the current duty, and adds the same elements to
`used`. -/
theorem walkLoop_eq {be : List (Nat × Nat)} {n : Nat}
    (hInc : ∀ u w, beGet be u = some w → u < w ∧ w < n) :
    ∀ (fuel v : Nat) (cur : List Nat) (used : Finset Nat),
      v < n → n ≤ fuel + v →
      walkLoop be n fuel v cur used =
        some (cur ++ beOrbit be n v, used ∪ (beOrbit be n v).toFinset) := by
  intro fuel
  induction fuel with
  | zero =>
    intro v cur used hv hle
    exact absurd hle (by omega)
  | succ f ih =>
    intro v cur used hv hle
    cases hb : beGet be v with
    | none =>
      have horb : beOrbit be n v = [] := by
        obtain ⟨m, rfl⟩ : ∃ m, n = m + 1 := ⟨n - 1, by omega⟩
        exact beOrbit_succ_none m hb
      rw [walkLoop_succ_none f cur used hb, horb]
      simp
    | some w =>
      obtain ⟨hvw, hwn⟩ := hInc v w hb
      rw [walkLoop_succ_some f cur used hb, if_neg (by omega),
        if_neg (by omega)]
      rw [ih w (cur ++ [w]) (insert w used) hwn (by omega)]
      rw [beOrbit_step hInc v w hb]
      simp only [Option.some_inj, Prod.mk.injEq]
      constructor
      · simp
      · rw [List.toFinset_cons]
        ext x
        simp only [Finset.mem_union, Finset.mem_insert, List.mem_toFinset]
        tauto

/-- If every element of `used` either has all its `be`-predecessors inside
`used` or lies below `bound`, then no element of the successor chain of a
fresh `v ≥ bound` is already in `used`. -/
theorem closure_not_used {be : List (Nat × Nat)} {n : Nat}
    (hInc : ∀ u w, beGet be u = some w → u < w ∧ w < n)
    (used : Finset Nat) (bound : Nat)
    (hP : ∀ x ∈ used, (∀ p, beGet be p = some x → p ∈ used) ∨ x < bound)
    (v : Nat) (hvb : bound ≤ v) (hvu : v ∉ used) :
    ∀ x, (x = v ∨ x ∈ beOrbit be n v) → x ∉ used := by
  intro x
  induction x using Nat.strong_induction_on with
  | _ x ihx =>
    intro hx hxu
    rcases hx with rfl | horb
    · exact hvu hxu
    · obtain ⟨hvx, hxn⟩ := beOrbit_mem_bounds hInc n v x horb
      rcases hP x hxu with hpred | hlt
      · obtain ⟨p, hp, hpx⟩ := beOrbit_pred n v x horb
        obtain ⟨hpx2, -⟩ := hInc p x hpx
        exact ihx p hpx2 hp (hpred p hpx)
      · omega

theorem chainsLoop_cons (be : List (Nat × Nat)) (n fuel u v : Nat)
    (rest : List (Nat × Nat)) (used : Finset Nat)
    (chains : List (List Nat)) :
    chainsLoop be n fuel ((u, v) :: rest) used chains =
      if u ∈ used ∨ v ∈ used then
        chainsLoop be n fuel rest used chains
      else
        match walkLoop be n fuel v [u, v] (insert u (insert v used)) with
        | none => none
        | some (cur, used2) =>
            chainsLoop be n fuel rest used2 (chains ++ [cur]) := rfl

/-- Invariant of the `for u, v in be.items():` loop under the hypotheses of
the amended partition claim: the loop terminates, `used` stays exactly the
set of trips placed in some chain, the chained trips stay distinct, and all
stay below the trip count. -/
theorem chainsLoop_partition {be : List (Nat × Nat)} {n : Nat}
    (hInc : ∀ u w, beGet be u = some w → u < w ∧ w < n)
    (hkeys : (be.map Prod.fst).Nodup)
    (ht : (be.map Prod.snd).Nodup)
    (hPW : (be.map Prod.fst).Pairwise (· < ·)) :
    ∀ (fuel : Nat), n ≤ fuel →
    ∀ (items pre : List (Nat × Nat)) (used : Finset Nat)
      (chains : List (List Nat)),
      be = pre ++ items →
      (∀ x, x ∈ used ↔ x ∈ chains.flatten) →
      chains.flatten.Nodup →
      (∀ x ∈ chains.flatten, x < n) →
      (∀ x ∈ used, (∀ p, beGet be p = some x → p ∈ used) ∨
        x ∈ pre.map Prod.fst) →
      ∃ (used2 : Finset Nat) (chains2 : List (List Nat)),
        chainsLoop be n fuel items used chains = some (used2, chains2) ∧
        (∀ x, x ∈ used2 ↔ x ∈ chains2.flatten) ∧
        chains2.flatten.Nodup ∧
        (∀ x ∈ chains2.flatten, x < n) := by
  intro fuel hfuel items
  induction items with
  | nil =>
    intro pre used chains hsplit hB hC hD hP
    exact ⟨used, chains, rfl, hB, hC, hD⟩
  | cons p rest ih =>
    obtain ⟨u, v⟩ := p
    intro pre used chains hsplit hB hC hD hP
    have huv_be : (u, v) ∈ be := by rw [hsplit]; simp
    have hbeget : beGet be u = some v :=
      beGet_eq_some_of_mem be hkeys u v huv_be
    obtain ⟨huv, hvn⟩ := hInc u v hbeget
    by_cases hcond : u ∈ used ∨ v ∈ used
    · rw [chainsLoop_cons, if_pos hcond]
      refine ih (pre ++ [(u, v)]) used chains (by simp [hsplit]) hB hC hD ?_
      intro x hx
      rcases hP x hx with h1 | h2
      · exact Or.inl h1
      · exact Or.inr (by rw [List.map_append]; exact List.mem_append_left _ h2)
    · have hu : u ∉ used := fun h => hcond (Or.inl h)
      have hv : v ∉ used := fun h => hcond (Or.inr h)
      have hwalk := walkLoop_eq hInc fuel v [u, v]
        (insert u (insert v used)) hvn (by omega)
      have hPW2 := hPW
      rw [hsplit, List.map_append, List.map_cons] at hPW2
      have hkey_lt : ∀ k ∈ pre.map Prod.fst, k < u := by
        intro k hk
        exact (List.pairwise_append.mp hPW2).2.2 k hk u (by simp)
      have horb_not_used : ∀ x ∈ beOrbit be n v, x ∉ used := by
        intro x hx
        refine closure_not_used hInc used u ?_ v (le_of_lt huv) hv x
          (Or.inr hx)
        intro y hy
        rcases hP y hy with h1 | h2
        · exact Or.inl h1
        · exact Or.inr (hkey_lt y h2)
      have horb_gt : ∀ x ∈ beOrbit be n v, v < x ∧ x < n :=
        fun x hx => beOrbit_mem_bounds hInc n v x hx
      have hB2 : ∀ x, x ∈ insert u (insert v used) ∪
            (beOrbit be n v).toFinset ↔
          x ∈ (chains ++ [[u, v] ++ beOrbit be n v]).flatten := by
        intro x
        simp only [Finset.mem_union, Finset.mem_insert, List.mem_toFinset,
          List.flatten_append, List.flatten_cons, List.flatten_nil,
          List.append_nil, List.mem_append, List.cons_append,
          List.nil_append, List.mem_cons, hB x]
        tauto
      have hC2 : (chains ++ [[u, v] ++ beOrbit be n v]).flatten.Nodup := by
        rw [List.flatten_append]
        simp only [List.flatten_cons, List.flatten_nil, List.append_nil,
          List.cons_append, List.nil_append]
        refine List.Nodup.append hC ?_ ?_
        · have hnd : (v :: beOrbit be n v).Nodup :=
            (beOrbit_chain_sorted hInc n v).nodup
          refine List.nodup_cons.mpr ⟨?_, hnd⟩
          intro hmem
          rcases List.mem_cons.mp hmem with heq | hmem2
          · omega
          · exact absurd (horb_gt u hmem2).1 (by omega)
        · intro x hx1 hx2
          have hxu : x ∈ used := (hB x).mpr hx1
          rcases List.mem_cons.mp hx2 with rfl | hx3
          · exact hu hxu
          rcases List.mem_cons.mp hx3 with rfl | hx4
          · exact hv hxu
          · exact horb_not_used x hx4 hxu
      have hD2 : ∀ x ∈ (chains ++ [[u, v] ++ beOrbit be n v]).flatten,
          x < n := by
        intro x hx
        rw [List.flatten_append] at hx
        simp only [List.flatten_cons, List.flatten_nil, List.append_nil,
          List.cons_append, List.nil_append, List.mem_append,
          List.mem_cons] at hx
        rcases hx with h1 | rfl | rfl | h4
        · exact hD x h1
        · omega
        · exact hvn
        · exact (horb_gt x h4).2
      have hP2 : ∀ x ∈ insert u (insert v used) ∪
            (beOrbit be n v).toFinset,
          (∀ p, beGet be p = some x →
            p ∈ insert u (insert v used) ∪ (beOrbit be n v).toFinset) ∨
          x ∈ (pre ++ [(u, v)]).map Prod.fst := by
        intro x hx
        simp only [Finset.mem_union, Finset.mem_insert,
          List.mem_toFinset] at hx
        rcases hx with (rfl | rfl | hxu) | hxorb
        · refine Or.inr ?_
          rw [List.map_append]
          exact List.mem_append_right _ (by simp)
        · refine Or.inl ?_
          intro p hp
          have hpu : p = u := beGet_injective be ht p u x hp hbeget
          subst hpu
          simp
        · rcases hP x hxu with h1 | h2
          · refine Or.inl ?_
            intro p hp
            simp only [Finset.mem_union, Finset.mem_insert,
              List.mem_toFinset]
            exact Or.inl (Or.inr (Or.inr (h1 p hp)))
          · refine Or.inr ?_
            rw [List.map_append]
            exact List.mem_append_left _ h2
        · refine Or.inl ?_
          intro p hp
          obtain ⟨q, hq, hqx⟩ := beOrbit_pred n v x hxorb
          have hpq : p = q := beGet_injective be ht p q x hp hqx
          subst hpq
          simp only [Finset.mem_union, Finset.mem_insert, List.mem_toFinset]
          rcases hq with rfl | hq2
          · tauto
          · tauto
      rw [chainsLoop_cons, if_neg hcond, hwalk]
      exact ih (pre ++ [(u, v)])
        (insert u (insert v used) ∪ (beOrbit be n v).toFinset)
        (chains ++ [[u, v] ++ beOrbit be n v])
        (by simp [hsplit]) hB2 hC2 hD2 hP2

theorem flattenMapSingleton (l : List Nat) :
    (l.map (fun i => [i])).flatten = l := by
  induction l with
  | nil => rfl
  | cons a t ih => simp [ih]

/-- C3 (amended): when every matching edge goes from an earlier trip to a
strictly later one (as the real pipeline guarantees, trips being sorted by
start time), all trip indices are below the trip count, and no trip repeats
as a source or as a target, `ConvertEdgesToBuses` terminates and its duties
partition the trips: each of `0, …, tripsCount - 1` appears in exactly one
duty.  (Without `p.1 < p.2` the partition fails: see the counterexample.) -/
theorem convertEdgesToBuses_partition (n : Nat) (edges : List (Nat × Nat))
    (hbound : ∀ p ∈ edges, p.1 < p.2 ∧ p.2 < n)
    (hsrc : (edges.map Prod.fst).Nodup)
    (htgt : (edges.map Prod.snd).Nodup) :
    ∃ buses, convertEdgesToBuses n edges = some buses ∧
      buses.flatten.Perm (List.range n) := by
  have hperm : (List.insertionSort edgeLe edges).Perm edges :=
    List.perm_insertionSort edgeLe edges
  have hkeys : ((List.insertionSort edgeLe edges).map Prod.fst).Nodup :=
    ((hperm.map Prod.fst).nodup_iff).mpr hsrc
  have htgt2 : ((List.insertionSort edgeLe edges).map Prod.snd).Nodup :=
    ((hperm.map Prod.snd).nodup_iff).mpr htgt
  have hbe : buildBe (List.insertionSort edgeLe edges) =
      List.insertionSort edgeLe edges :=
    buildBe_of_nodup _ hkeys
  have hInc : ∀ u w, beGet (List.insertionSort edgeLe edges) u = some w →
      u < w ∧ w < n := by
    intro u w h
    have hm := beGet_some_mem _ u w h
    exact hbound (u, w) (hperm.mem_iff.mp hm)
  have hsorted : List.Pairwise edgeLe (List.insertionSort edgeLe edges) :=
    List.sorted_insertionSort edgeLe edges
  have hPW : ((List.insertionSort edgeLe edges).map Prod.fst).Pairwise
      (· < ·) := by
    rw [List.pairwise_map]
    have hne : List.Pairwise (fun p q : Nat × Nat => p.1 ≠ q.1)
        (List.insertionSort edgeLe edges) := List.pairwise_map.mp hkeys
    refine (hsorted.and hne).imp ?_
    intro p q hpq
    obtain ⟨hle, hne2⟩ := hpq
    rcases hle with h1 | ⟨h2, h3⟩
    · exact h1
    · exact absurd h2 hne2
  obtain ⟨used2, chains2, heq, hB, hC, hD⟩ :=
    chainsLoop_partition hInc hkeys htgt2 hPW (n + edges.length + 2)
      (by omega) (List.insertionSort edgeLe edges) [] ∅ []
      (by simp) (by simp) (by simp) (by simp) (by simp)
  refine ⟨sortBuses (chains2 ++ ((List.range n).filter
      (fun i => i ∉ used2)).map (fun i => [i])), ?_, ?_⟩
  · have hred : convertEdgesToBuses n edges =
        match chainsLoop (buildBe (List.insertionSort edgeLe edges)) n
          (n + edges.length + 2)
          (buildBe (List.insertionSort edgeLe edges)) ∅ [] with
        | none => none
        | some (used, chains) =>
          some (sortBuses (chains ++ ((List.range n).filter
            (fun i => i ∉ used)).map (fun i => [i]))) := rfl
    rw [hred, hbe, heq]
  · have hsoloNd : ((List.range n).filter (fun i => i ∉ used2)).Nodup :=
      List.Nodup.filter _ (List.nodup_range n)
    have happNd : (chains2.flatten ++
        (List.range n).filter (fun i => i ∉ used2)).Nodup := by
      refine List.Nodup.append hC hsoloNd ?_
      intro x hx1 hx2
      have hxu : x ∈ used2 := (hB x).mpr hx1
      have hx3 := List.of_mem_filter hx2
      simp only [decide_eq_true_eq] at hx3
      exact hx3 hxu
    have hmem : ∀ x, x ∈ chains2.flatten ++ (List.range n).filter
        (fun i => i ∉ used2) ↔ x ∈ List.range n := by
      intro x
      simp only [List.mem_append, List.mem_filter, List.mem_range,
        decide_eq_true_eq]
      constructor
      · rintro (h1 | ⟨h2, h3⟩)
        · exact hD x h1
        · exact h2
      · intro hx
        by_cases hxu : x ∈ used2
        · exact Or.inl ((hB x).mp hxu)
        · exact Or.inr ⟨hx, hxu⟩
    have hpermFinal : (chains2.flatten ++ (List.range n).filter
        (fun i => i ∉ used2)).Perm (List.range n) :=
      (List.perm_ext_iff_of_nodup happNd (List.nodup_range n)).mpr hmem
    refine (List.Perm.flatten (List.perm_insertionSort busOrd _)).trans ?_
    rw [List.flatten_append, flattenMapSingleton]
    exact hpermFinal

/-- Witness for the amended C3 theorem at a concrete instance. -/
theorem convertEdgesToBuses_partition_witness :
    ∃ buses, convertEdgesToBuses 3 [(0, 1)] = some buses ∧
      buses.flatten.Perm (List.range 3) :=
  convertEdgesToBuses_partition 3 [(0, 1)] (by decide) (by decide)
    (by decide)
